import Mathlib

/-!
Verification of the block/chunk GPU memory allocator of tyleri-renderer
(`src/renderer/memory_allocator/block_allocator/chunk_manager.rs` and
`src/renderer/memory_allocator/block_allocator/mod.rs`).

The Rust data structures are shallowly embedded as follows.

* `FxHashMap<u64, Block>` and `FxHashMap<usize, AllocatedChuck>` become
  association lists `List (Nat × _)`; `insert` replaces any previous binding
  and `remove` deletes the binding, so `mlookup` behaves exactly like
  `HashMap::get`.
* The `BTreeMap<u64, FxHashSet<BlockIndex>>` of unused blocks becomes a list
  of buckets sorted by ascending length key (the order in which `range(len..)`
  iterates); each `FxHashSet` becomes a duplicate-free list, iterated in list
  order (the hash-set iteration order is arbitrary in Rust; the embedding
  fixes one order, which determinizes candidate choice).
* `DeviceMemory` is opaque to the allocator except for its `size`, so it is
  modelled by that size (a `Nat`).
* All `u64`/`usize` arithmetic is on `Nat`.  Rust subtraction that would
  underflow is modelled by `checkedSub`, and an operation that performs such a
  subtraction (a panic with overflow checks; a silent wrap-around corrupting
  the allocator in release builds) aborts: fallible operations return
  `Option`, where `none` models a panic / undefined behaviour
  (`unwrap_unchecked` on a missing entry, assertion failure, `% 0`), and
  `some` carries the Rust return value together with the updated state.
-/

/-- Embedding of `Block`: length, used flag and the doubly-linked neighbour
offsets, exactly the fields of the Rust struct. -/
structure Block where
  len : Nat
  used : Bool
  pre : Option Nat
  next : Option Nat
deriving DecidableEq

/-- Embedding of `BlockIndex`: the stable handle (chunk-local offset, chunk
identifier) returned by allocation. -/
structure BlockIndex where
  offset : Nat
  chunk_index : Nat
deriving DecidableEq

/-- Lookup in an association list, the model of `HashMap::get`. -/
def mlookup {α : Type} : List (Nat × α) → Nat → Option α
  | [], _ => none
  | (k, v) :: rest, k' => if k' = k then some v else mlookup rest k'

/-- Removal of a key, the model of `HashMap::remove`. -/
def merase {α : Type} : List (Nat × α) → Nat → List (Nat × α)
  | [], _ => []
  | (k, v) :: rest, k' => if k' = k then merase rest k' else (k, v) :: merase rest k'

/-- Insertion of a binding, the model of `HashMap::insert` (replaces any
previous binding for the key). -/
def minsert {α : Type} (m : List (Nat × α)) (k : Nat) (v : α) : List (Nat × α) :=
  (k, v) :: merase m k

/-- Rust `u64` subtraction: `some (a - b)` when it does not underflow, `none`
(overflow panic / wrap-around) otherwise. -/
def checkedSub (a b : Nat) : Option Nat :=
  if b ≤ a then some (a - b) else none

/-- Embedding of `AllocatedChuck` (sic): the blocks keyed by offset plus the
device memory, represented by its size. -/
structure AllocatedChuck where
  blocks : List (Nat × Block)
  device_memory : Nat
deriving DecidableEq

/-- Embedding of `AllocatedChuck::new`: one fully-free block spanning the whole
chunk; `none` models the `assert_ne!(size, 0)` panic. -/
def AllocatedChuck.new (size : Nat) : Option AllocatedChuck :=
  if size = 0 then none
  else some ⟨[(0, ⟨size, false, none, none⟩)], size⟩

/-- Embedding of `AllocatedChuck::new_and_allocated`: a used block of
`allocated_len` at offset 0 and, unless the fit is perfect, a free block with
the remainder.  `none` models the assertion panics and the `len -
allocated_len` underflow. -/
def AllocatedChuck.new_and_allocated (size allocated_len : Nat) : Option AllocatedChuck :=
  if size = 0 then none
  else if allocated_len = 0 then none
  else if size = allocated_len then
    some ⟨[(0, ⟨allocated_len, true, none, none⟩)], size⟩
  else
    match checkedSub size allocated_len with
    | none => none
    | some rest =>
      some ⟨minsert [(0, ⟨allocated_len, true, none, some allocated_len⟩)]
              allocated_len ⟨rest, false, some 0, none⟩, size⟩

/-- Embedding of `ChunkManager`: the length-keyed index of unused blocks and
the chunks keyed by chunk index. -/
structure ChunkManager where
  unused_blocks : List (Nat × List BlockIndex)
  chunks : List (Nat × AllocatedChuck)
deriving DecidableEq

/-- `ChunkManager::default()`. -/
def ChunkManager.default : ChunkManager := ⟨[], []⟩

/-- Embedding of `ChunkManager::insert_unused`: add `BlockIndex(offset,
chunk_index)` to the bucket of length `len`, creating the bucket if needed.
The bucket list is kept sorted by length (`BTreeMap`); the bucket itself is a
set, so inserting an element already present does nothing. -/
def insertUnused : List (Nat × List BlockIndex) → Nat → Nat → Nat → List (Nat × List BlockIndex)
  | [], offset, len, chunk_index => [(len, [⟨offset, chunk_index⟩])]
  | (l, s) :: rest, offset, len, chunk_index =>
    if len < l then
      (len, [⟨offset, chunk_index⟩]) :: (l, s) :: rest
    else if len = l then
      (l, if (⟨offset, chunk_index⟩ : BlockIndex) ∈ s then s
          else (⟨offset, chunk_index⟩ : BlockIndex) :: s) :: rest
    else
      (l, s) :: insertUnused rest offset len chunk_index

/-- Removal of one element from a set modelled as a list. -/
def removeEntry : List BlockIndex → BlockIndex → List BlockIndex
  | [], _ => []
  | x :: rest, bi => if x = bi then removeEntry rest bi else x :: removeEntry rest bi

/-- Embedding of `ChunkManager::remove_unused`: delete `BlockIndex(offset,
chunk_index)` from the bucket of length `len` and drop the bucket when it
becomes empty; a missing bucket is a no-op. -/
def removeUnused : List (Nat × List BlockIndex) → Nat → Nat → Nat → List (Nat × List BlockIndex)
  | [], _, _, _ => []
  | (l, s) :: rest, offset, len, chunk_index =>
    if len = l then
      let s' := removeEntry s ⟨offset, chunk_index⟩
      if s' = [] then rest else (l, s') :: rest
    else
      (l, s) :: removeUnused rest offset len chunk_index

/-- Embedding of `ChunkManager::add_chunk`: register a brand-new fully-free
chunk under the key `chunks.len()` and index its single free block. -/
def ChunkManager.add_chunk (cm : ChunkManager) (size : Nat) : Option (Nat × ChunkManager) :=
  match AllocatedChuck.new size with
  | none => none
  | some c =>
    let chunks_index := cm.chunks.length
    some (chunks_index,
      ⟨insertUnused cm.unused_blocks 0 size chunks_index,
       minsert cm.chunks chunks_index c⟩)

/-- Embedding of `ChunkManager::add_chunk_and_allocate`: register a new chunk
with a used block of `allocate_len` at offset 0 and index the remainder
(`insert_unused(allocate_len, size - allocate_len, chunk_index)` — note that a
perfect fit indexes a zero-length entry). -/
def ChunkManager.add_chunk_and_allocate (cm : ChunkManager) (size allocate_len : Nat) :
    Option (BlockIndex × ChunkManager) :=
  match AllocatedChuck.new_and_allocated size allocate_len with
  | none => none
  | some c =>
    let chunk_index := cm.chunks.length
    match checkedSub size allocate_len with
    | none => none
    | some rest =>
      some (⟨0, chunk_index⟩,
        ⟨insertUnused cm.unused_blocks allocate_len rest chunk_index,
         minsert cm.chunks chunk_index c⟩)

/-- `ChunkManager::get_device_memory`. -/
def ChunkManager.get_device_memory (cm : ChunkManager) (bi : BlockIndex) : Option Nat :=
  (mlookup cm.chunks bi.chunk_index).map (·.device_memory)

/-- The candidate list scanned by `allocate`: all `(bucket length, BlockIndex)`
pairs of the buckets with length `≥ len`, in ascending bucket order
(`unused_blocks.range(len..)`). -/
def candidates : List (Nat × List BlockIndex) → Nat → List (Nat × BlockIndex)
  | [], _ => []
  | (l, s) :: rest, len =>
    (if len ≤ l then s.map (fun bi => (l, bi)) else []) ++ candidates rest len

/-- State change of `allocate` on success in the aligned branch
(`offset % alignment == 0`): mark the candidate used, and when `len` is a
strict prefix split off a trailing free block. -/
def allocAligned (cm : ChunkManager) (ulen : Nat) (bi : BlockIndex)
    (chunk : AllocatedChuck) (block : Block) (len : Nat) : ChunkManager :=
  let u₁ := removeUnused cm.unused_blocks bi.offset ulen bi.chunk_index
  if len = block.len then
    let blocks' := minsert chunk.blocks bi.offset { block with used := true }
    ⟨u₁, minsert cm.chunks bi.chunk_index { chunk with blocks := blocks' }⟩
  else
    let new_offset := bi.offset + len
    let new_len := block.len - len
    let new_block : Block := ⟨new_len, false, some bi.offset, block.next⟩
    let block' : Block := ⟨len, true, block.pre, some new_offset⟩
    let blocks' := minsert (minsert chunk.blocks bi.offset block') new_offset new_block
    ⟨insertUnused u₁ new_offset new_len bi.chunk_index,
     minsert cm.chunks bi.chunk_index { chunk with blocks := blocks' }⟩

/-- State change of `allocate` on success in the misaligned branch: shrink the
candidate to the padding (still free), place the used block at the padded
offset, and when room remains add a trailing free block. -/
def allocMisaligned (cm : ChunkManager) (ulen : Nat) (bi : BlockIndex)
    (chunk : AllocatedChuck) (block : Block) (len wasted avail : Nat) : ChunkManager :=
  let offset := bi.offset
  let ci := bi.chunk_index
  let u₁ := removeUnused cm.unused_blocks offset ulen ci
  let new_offset := offset + wasted
  let blockA : Block := ⟨wasted, block.used, block.pre, some new_offset⟩
  let u₂ := insertUnused u₁ offset wasted ci
  if len < avail then
    let tail_block_offset := offset + wasted + len
    let tail_block_len := block.len - wasted - len
    let tail : Block := ⟨tail_block_len, false, some new_offset, block.next⟩
    let new_block : Block := ⟨len, true, some offset, some tail_block_offset⟩
    let blocks' := minsert (minsert (minsert chunk.blocks offset blockA) tail_block_offset tail)
      new_offset new_block
    ⟨insertUnused u₂ tail_block_offset tail_block_len ci,
     minsert cm.chunks ci { chunk with blocks := blocks' }⟩
  else
    let new_block : Block := ⟨len, true, some offset, block.next⟩
    let blocks' := minsert (minsert chunk.blocks offset blockA) new_offset new_block
    ⟨u₂, minsert cm.chunks ci { chunk with blocks := blocks' }⟩

/-- The candidate scan of `ChunkManager::allocate`.  Candidates are examined in
order; a too-small candidate is skipped with no state change (`continue`),
the first fitting candidate is claimed and the scan returns.  `none` models
the aborts: `unwrap_unchecked` on a stale index entry, `offset % 0`, and the
`block.len - wasted_len` underflow. -/
def allocLoop (cm : ChunkManager) (len align : Nat) :
    List (Nat × BlockIndex) → Option (Option BlockIndex × ChunkManager)
  | [] => some (none, cm)
  | (ulen, bi) :: rest =>
    match mlookup cm.chunks bi.chunk_index with
    | none => none
    | some chunk =>
      match mlookup chunk.blocks bi.offset with
      | none => none
      | some block =>
        if align = 0 then none
        else if bi.offset % align = 0 then
          if block.len < len then allocLoop cm len align rest
          else some (some ⟨bi.offset, bi.chunk_index⟩, allocAligned cm ulen bi chunk block len)
        else
          let wasted := align - bi.offset % align
          match checkedSub block.len wasted with
          | none => none
          | some avail =>
            if avail < len then allocLoop cm len align rest
            else some (some ⟨bi.offset + wasted, bi.chunk_index⟩,
                       allocMisaligned cm ulen bi chunk block len wasted avail)

/-- Embedding of `ChunkManager::allocate`: a zero-length request returns `None`
immediately; otherwise the unused-block index is scanned from bucket `len`
upwards. -/
def ChunkManager.allocate (cm : ChunkManager) (len align : Nat) :
    Option (Option BlockIndex × ChunkManager) :=
  if len = 0 then some (none, cm)
  else allocLoop cm len align (candidates cm.unused_blocks len)

/-- Embedding of `ChunkManager::free_unchecked` (with `merge_with_next` and
`merge_with_pre` inlined in the order the Rust calls them): remove the block,
absorb a free successor, then either extend a free predecessor or re-insert
the block as free.  `none` models the `unwrap_unchecked` aborts on a dangling
index or neighbour pointer. -/
def ChunkManager.free_unchecked (cm : ChunkManager) (bi : BlockIndex) : Option ChunkManager :=
  match mlookup cm.chunks bi.chunk_index with
  | none => none
  | some chunk =>
    match mlookup chunk.blocks bi.offset with
    | none => none
    | some block =>
      let blocks₀ := merase chunk.blocks bi.offset
      let afterNext : Option (Block × List (Nat × Block) × List (Nat × List BlockIndex)) :=
        match block.next with
        | none => some (block, blocks₀, cm.unused_blocks)
        | some i =>
          match mlookup blocks₀ i with
          | none => none
          | some next_block =>
            if next_block.used = false then
              some ({ block with len := block.len + next_block.len, next := next_block.next },
                    merase blocks₀ i,
                    removeUnused cm.unused_blocks i next_block.len bi.chunk_index)
            else some (block, blocks₀, cm.unused_blocks)
      match afterNext with
      | none => none
      | some (block₁, blocks₁, u₁) =>
        match block₁.pre with
        | some pre_offset =>
          match mlookup blocks₁ pre_offset with
          | none => none
          | some pre_block =>
            if pre_block.used = false then
              let pre' : Block := ⟨pre_block.len + block₁.len, pre_block.used, pre_block.pre,
                block₁.next⟩
              let blocks₂ := minsert blocks₁ pre_offset pre'
              some ⟨insertUnused (removeUnused u₁ pre_offset pre_block.len bi.chunk_index)
                      pre_offset (pre_block.len + block₁.len) bi.chunk_index,
                    minsert cm.chunks bi.chunk_index { chunk with blocks := blocks₂ }⟩
            else
              let blocks₂ := minsert blocks₁ bi.offset { block₁ with used := false }
              some ⟨insertUnused u₁ bi.offset block₁.len bi.chunk_index,
                    minsert cm.chunks bi.chunk_index { chunk with blocks := blocks₂ }⟩
        | none =>
              let blocks₂ := minsert blocks₁ bi.offset { block₁ with used := false }
              some ⟨insertUnused u₁ bi.offset block₁.len bi.chunk_index,
                    minsert cm.chunks bi.chunk_index { chunk with blocks := blocks₂ }⟩

/-- Inner `retain` of `free_unused_chunk`: walk one bucket's entries in order;
an entry whose chunk has exactly one block removes that chunk and is dropped,
an entry whose chunk is already gone is dropped, any other entry is kept. -/
def retainInfos : List BlockIndex → List (Nat × AllocatedChuck) →
    List BlockIndex × List (Nat × AllocatedChuck)
  | [], cs => ([], cs)
  | info :: is, cs =>
    match mlookup cs info.chunk_index with
    | some chunk =>
      if chunk.blocks.length = 1 then retainInfos is (merase cs info.chunk_index)
      else
        let (is', cs') := retainInfos is cs
        (info :: is', cs')
    | none => retainInfos is cs

/-- Outer `retain` of `free_unused_chunk`: process the buckets in ascending
order, dropping buckets that become empty. -/
def retainBuckets : List (Nat × List BlockIndex) → List (Nat × AllocatedChuck) →
    List (Nat × List BlockIndex) × List (Nat × AllocatedChuck)
  | [], cs => ([], cs)
  | (l, infos) :: rest, cs =>
    let (infos', cs₁) := retainInfos infos cs
    let (rest', cs₂) := retainBuckets rest cs₁
    ((if infos' = [] then rest' else (l, infos') :: rest'), cs₂)

/-- Embedding of `ChunkManager::free_unused_chunk`: scan the unused-block
index; any entry whose chunk has a single block (taken by the code to mean the
chunk is entirely unused) removes that chunk. -/
def ChunkManager.free_unused_chunk (cm : ChunkManager) : ChunkManager :=
  let p := retainBuckets cm.unused_blocks cm.chunks
  ⟨p.1, p.2⟩

/-- Embedding of `BlockBasedAllocator` state: the chunk manager behind the
lock and the atomic running total of committed bytes.  The external memory
provider (`DeviceMemory::builder(...).build()`) is a parameter `provide`
telling for each requested size whether the commit succeeds; the returned
memory has exactly the requested size. -/
structure BlockBasedAllocator where
  chunk_manager : ChunkManager
  total_size : Nat
deriving DecidableEq

/-- Embedding of `BlockBasedAllocator::capacity_with_allocate`: provision a
chunk of `len * 2` bytes from the provider and immediately carve
`allocate_len`; `some none` is the propagated provider error, outer `none` a
panic. -/
def capacity_with_allocate (provide : Nat → Bool) (a : BlockBasedAllocator)
    (len allocate_len : Nat) : Option (Option (BlockIndex × BlockBasedAllocator)) :=
  let len2 := len * 2
  if provide len2 then
    match a.chunk_manager.add_chunk_and_allocate len2 allocate_len with
    | none => none
    | some (bi, cm') => some (some (bi, ⟨cm', a.total_size + len2⟩))
  else some none

/-- Embedding of `BlockBasedAllocator::allocate` for a resource requiring
`size` bytes at alignment `align`: try the chunk manager; on failure grow by
`capacity_with_allocate (max total_size size) size`; `some none` is the `None`
return (provider refused, or `get_device_memory` missed), outer `none` a
panic.  Binding the resource is external and modelled as succeeding. -/
def BlockBasedAllocator.allocate (provide : Nat → Bool) (a : BlockBasedAllocator)
    (size align : Nat) : Option (Option (BlockIndex × BlockBasedAllocator)) :=
  match a.chunk_manager.allocate size align with
  | none => none
  | some (some block_index, cm₁) =>
    match cm₁.get_device_memory block_index with
    | none => some none
    | some _ => some (some (block_index, ⟨cm₁, a.total_size⟩))
  | some (none, cm₁) =>
    let a₁ : BlockBasedAllocator := ⟨cm₁, a.total_size⟩
    match capacity_with_allocate provide a₁ (max a₁.total_size size) size with
    | none => none
    | some none => some none
    | some (some (block_index, a₂)) =>
      match a₂.chunk_manager.get_device_memory block_index with
      | none => some none
      | some _ => some (some (block_index, a₂))

/-! ### Observation helpers and concrete executions -/

/-- Extract the resulting state of `add_chunk` (default state on panic). -/
def stepAdd (r : Option (Nat × ChunkManager)) : ChunkManager :=
  match r with
  | some (_, cm) => cm
  | none => ChunkManager.default

/-- Extract the resulting state of `add_chunk_and_allocate`. -/
def stepACA (r : Option (BlockIndex × ChunkManager)) : ChunkManager :=
  match r with
  | some (_, cm) => cm
  | none => ChunkManager.default

/-- Extract the resulting state of `allocate`. -/
def stepAlloc (r : Option (Option BlockIndex × ChunkManager)) : ChunkManager :=
  match r with
  | some (_, cm) => cm
  | none => ChunkManager.default

/-- Extract the resulting state of `free_unchecked`. -/
def stepFree (r : Option ChunkManager) : ChunkManager :=
  r.getD ChunkManager.default

/-- The block stored at chunk `ci`, offset `off`. -/
def blockAt (cm : ChunkManager) (ci off : Nat) : Option Block :=
  match mlookup cm.chunks ci with
  | none => none
  | some c => mlookup c.blocks off

/-- Whether the handle `bi` currently denotes a block marked used. -/
def blockUsedAt (cm : ChunkManager) (bi : BlockIndex) : Bool :=
  match blockAt cm bi.chunk_index bi.offset with
  | none => false
  | some b => b.used

/-- Sum of the lengths of all blocks of chunk `ci`. -/
def chunkLenSum (cm : ChunkManager) (ci : Nat) : Option Nat :=
  (mlookup cm.chunks ci).map (fun c => (c.blocks.map (fun p => p.2.len)).sum)

/-- The size of the device memory backing chunk `ci`. -/
def chunkSize (cm : ChunkManager) (ci : Nat) : Option Nat :=
  (mlookup cm.chunks ci).map (·.device_memory)

/-- A manager holding one fresh 128-byte chunk. -/
def oneChunk128 : ChunkManager := stepAdd (ChunkManager.default.add_chunk 128)

/-- State after `add_chunk_and_allocate(128, 128)` on an empty manager: one
chunk whose single block is used and spans the whole chunk. -/
def c1cm : ChunkManager := stepACA (ChunkManager.default.add_chunk_and_allocate 128 128)

/-- Intermediate states of the C3 scenario. -/
def c3s1 : ChunkManager := stepACA (oneChunk128.add_chunk_and_allocate 128 1)

/-- After reclaiming the fully-free chunk 0, chunk 1 (with its used block)
remains. -/
def c3s2 : ChunkManager := c3s1.free_unused_chunk

/-- After a further `add_chunk(64)`, which reuses index `chunks.len() = 1`. -/
def c3s3 : ChunkManager := stepAdd (c3s2.add_chunk 64)

/-- State with blocks `[0, used, len 1][1, free, len 127]`. -/
def c8s1 : ChunkManager := stepAlloc (oneChunk128.allocate 1 1)

/-- State after `allocate(5, 4)` on the fresh 128-byte chunk (aligned split
path), used by the round-trip scenario. -/
def c6s1 : ChunkManager := stepAlloc (oneChunk128.allocate 5 4)

/-! ### The stale-`pre` defect of `allocate`'s split paths (claims about the
chain invariants).

Splitting a free block never updates the `pre` pointer of the split block's
original successor, so that successor keeps pointing at the pre-split offset.
The sequences below drive this into violations of the chain and conservation
invariants. -/

/-- `[0,used,3][3,free,125]` -/
def c2s1 : ChunkManager := stepAlloc (oneChunk128.allocate 3 1)

/-- `[0,used,3][3,used,1][4,free,124]` -/
def c2s2 : ChunkManager := stepAlloc (c2s1.allocate 1 1)

/-- `[0,free,3][3,used,1][4,free,124]` -/
def c2s3 : ChunkManager := stepFree (c2s2.free_unchecked ⟨0, 0⟩)

/-- `[0,used,1][1,free,2][3,used,1][4,free,124]`; block 3 keeps `pre = 0`. -/
def c2s4 : ChunkManager := stepAlloc (c2s3.allocate 1 1)

/-- `[0,used,1][1,used,2][3,used,1][4,free,124]` -/
def c2s5 : ChunkManager := stepAlloc (c2s4.allocate 2 1)

/-- `[0,free,1][1,used,2][3,used,1][4,free,124]` -/
def c2s6 : ChunkManager := stepFree (c2s5.free_unchecked ⟨0, 0⟩)

/-- Freeing block 3 absorbs block 4, then follows the stale `pre = 0` and
merges into the non-adjacent free block 0, which now overlaps block 1. -/
def c2s7 : ChunkManager := stepFree (c2s6.free_unchecked ⟨3, 0⟩)

/-- Splitting the overlapping block 0 re-inserts offset 1, overwriting the
used block there and losing 2 bytes. -/
def c2s8 : ChunkManager := stepAlloc (c2s7.allocate 1 1)

/-- `[0,used,2][2,free,126]` -/
def c4s1 : ChunkManager := stepAlloc (oneChunk128.allocate 2 1)

/-- `[0,used,2][2,used,1][3,free,125]` -/
def c4s2 : ChunkManager := stepAlloc (c4s1.allocate 1 1)

/-- `[0,free,2][2,used,1][3,free,125]` -/
def c4s3 : ChunkManager := stepFree (c4s2.free_unchecked ⟨0, 0⟩)

/-- `[0,used,1][1,free,1][2,used,1][3,free,125]`; block 2 keeps `pre = 0`. -/
def c4s4 : ChunkManager := stepAlloc (c4s3.allocate 1 1)

/-- Freeing block 2 absorbs block 3 but, following the stale `pre = 0`, sees
the used block 0 and fails to coalesce with the free block 1. -/
def c4s5 : ChunkManager := stepFree (c4s4.free_unchecked ⟨2, 0⟩)

/-! ### Theorems -/

/-- A manager holding one fresh 4-byte chunk (witness input for C7). -/
def c7cm : ChunkManager := stepAdd (ChunkManager.default.add_chunk 4)

/-- Result state of the C7 witness allocation. -/
def c7cm2 : ChunkManager := stepAlloc (c7cm.allocate 4 2)

/-- An empty block-based allocator (witness input for C5). -/
def c5a : BlockBasedAllocator := ⟨ChunkManager.default, 0⟩

/-! ### Segment abstraction and well-formedness of a manager

A healthy chunk is a consecutive sequence of segments `(length, used flag)`
starting at offset 0; `mkChain` renders such a sequence as the block map the
Rust code maintains for it.  `ManagerWF` states the invariants the allocator
is designed around: every chunk is such a segment chain with positive lengths
summing to the chunk size and no two adjacent free segments, the unused-block
index is sorted by length, and every indexed entry of positive length denotes
an existing free block of exactly that length. -/

/-- Total length of a segment list. -/
def sumLens (segs : List (Nat × Bool)) : Nat := (segs.map Prod.fst).sum

/-- The block map described by a segment list starting at offset `o` with
predecessor `p`. -/
def mkChain : Nat → Option Nat → List (Nat × Bool) → List (Nat × Block)
  | _, _, [] => []
  | o, p, (l, u) :: rest =>
    (o, ⟨l, u, p, if rest.isEmpty then none else some (o + l)⟩) :: mkChain (o + l) (some o) rest

/-- Offset of the last segment of `segs` when laid out from `o` after
predecessor `p` (`p` itself when `segs` is empty). -/
def preOf : Nat → Option Nat → List (Nat × Bool) → Option Nat
  | _, p, [] => p
  | o, _, (l, _) :: rest => preOf (o + l) (some o) rest

/-- The boundary offsets of a segment list laid out from `o`. -/
def bnds : Nat → List (Nat × Bool) → List Nat
  | _, [] => []
  | o, (l, _) :: rest => o :: bnds (o + l) rest

/-- No two adjacent segments are both free. -/
def NoAdjFree (segs : List (Nat × Bool)) : Prop :=
  List.Chain' (fun a b => a.2 = true ∨ b.2 = true) segs

/-- A chunk is well-formed when its block map is, lookup for lookup, the chain
of a positive-length segment list summing to the chunk size with no two
adjacent free segments. -/
def ChunkWF (c : AllocatedChuck) : Prop :=
  ∃ segs, (∀ s ∈ segs, 0 < s.1) ∧ sumLens segs = c.device_memory ∧ NoAdjFree segs ∧
    ∀ k, mlookup c.blocks k = mlookup (mkChain 0 none segs) k

/-- Membership of `bi` in the length-`l` bucket of the unused-block index. -/
def memU (u : List (Nat × List BlockIndex)) (l : Nat) (bi : BlockIndex) : Prop :=
  ∃ s, (l, s) ∈ u ∧ bi ∈ s

/-- The unused-block index is sorted by strictly increasing length key. -/
def UWF (u : List (Nat × List BlockIndex)) : Prop :=
  List.Pairwise (· < ·) (u.map Prod.fst)

/-- The well-formedness invariant of a whole manager. -/
structure ManagerWF (cm : ChunkManager) : Prop where
  chunkWF : ∀ ci c, mlookup cm.chunks ci = some c → ChunkWF c
  uwf : UWF cm.unused_blocks
  ucons : ∀ l bi, memU cm.unused_blocks l bi → 0 < l →
    ∃ c b, mlookup cm.chunks bi.chunk_index = some c ∧
      mlookup c.blocks bi.offset = some b ∧ b.used = false ∧ b.len = l

/-- Equivalence of two managers: same unused entries, and chunk for chunk the
same device memory and the same block map (lookup for lookup). -/
def CMEquiv (x y : ChunkManager) : Prop :=
  (∀ l bi, memU x.unused_blocks l bi ↔ memU y.unused_blocks l bi) ∧
  (∀ ci, (mlookup x.chunks ci).map (·.device_memory)
      = (mlookup y.chunks ci).map (·.device_memory)) ∧
  (∀ ci k, (mlookup x.chunks ci).map (fun c => mlookup c.blocks k)
      = (mlookup y.chunks ci).map (fun c => mlookup c.blocks k))

/-! ### Theorems about the embedded allocator -/

/-- C1: `free_unused_chunk` removes exactly the fully-free chunks and never a
chunk containing a used block.  REFUTED by the code: a chunk created by
`add_chunk_and_allocate` with `allocate_len = size` has a single block that is
used, yet `free_unused_chunk` removes it (the code equates "one block" with
"fully free", and the perfect-fit path indexes a phantom zero-length unused
entry that makes the scan visit this chunk). -/
theorem free_unused_chunk_removes_chunk_in_use :
    ChunkManager.default.add_chunk_and_allocate 128 128 = some (⟨0, 0⟩, c1cm) ∧
    blockUsedAt c1cm ⟨0, 0⟩ = true ∧
    c1cm.free_unused_chunk.chunks = [] ∧
    c1cm.free_unused_chunk.unused_blocks = [] := by decide

/-- C3: a live `BlockIndex` always denotes the chunk it was created in.
REFUTED by the code: `add_chunk` keys the new chunk by `chunks.len()`, which
collides with a live index after `free_unused_chunk` removed a chunk; the
colliding insert replaces the live chunk, so the still-allocated handle
`BlockIndex(0, 1)` silently changes from a used 1-byte block in the 128-byte
chunk to a free 64-byte block in the new chunk. -/
theorem add_chunk_reuses_live_chunk_index :
    oneChunk128.add_chunk_and_allocate 128 1 = some (⟨0, 1⟩, c3s1) ∧
    blockUsedAt c3s1 ⟨0, 1⟩ = true ∧
    blockAt c3s2 1 0 = some ⟨1, true, none, some 1⟩ ∧
    chunkSize c3s2 1 = some 128 ∧
    c3s2.add_chunk 64 = some (1, c3s3) ∧
    blockAt c3s3 1 0 = some ⟨64, false, none, none⟩ ∧
    chunkSize c3s3 1 = some 64 := by decide

/-- C8: a misaligned candidate is rejected whenever its length minus the
padding is smaller than the request, including when the length is smaller
than the padding itself, with no wrap-around affecting the decision.
REFUTED by the code: for the free block at offset 1 of length 127 and
`allocate(2, 256)` the padding is `256 - 1 = 255 > 127`, and
`available_len = block.len - wasted_len` underflows: with overflow checks the
call panics, in release builds the subtraction wraps around so the comparison
accepts the candidate and corrupts the block lists.  The model therefore
aborts (`none`) instead of rejecting the candidate and returning `None`. -/
theorem misaligned_padding_underflow_aborts :
    oneChunk128.allocate 1 1 = some (some ⟨0, 0⟩, c8s1) ∧
    blockAt c8s1 0 1 = some ⟨127, false, some 0, none⟩ ∧
    (1 : Nat) % 256 ≠ 0 ∧
    checkedSub 127 (256 - 1 % 256) = none ∧
    c8s1.allocate 2 256 = none := by decide

/-- Zero-length allocation leaves the manager unchanged and returns `None`;
shared computation behind the C9/C10 theorems. -/
theorem allocate_zero_eq (cm : ChunkManager) (align : Nat) :
    cm.allocate 0 align = some (none, cm) := rfl

/-- C9 counterexample: the claim says a zero-length request fails loudly with
a panic; on the code `allocate(0, 4)` on a one-chunk manager returns normally
(`None`) with the state untouched — it does not panic. -/
theorem allocate_zero_does_not_panic :
    oneChunk128.allocate 0 4 = some (none, oneChunk128) ∧
    oneChunk128.allocate 0 4 ≠ none := by decide

/-- C9 (amended): a zero-length allocation request is not a loud failure; for
every allocator state it silently returns `None` without panicking and leaves
the manager unchanged (and it is not retried). -/
theorem allocate_zero_silently_returns_none (cm : ChunkManager) (align : Nat) :
    cm.allocate 0 align = some (none, cm) ∧ cm.allocate 0 align ≠ none :=
  ⟨allocate_zero_eq cm align, by simp [allocate_zero_eq cm align]⟩

/-- C10: for every manager state and alignment, `allocate(0, alignment)`
returns `None` without panicking and leaves the manager completely unchanged:
no chunk, block or unused-block entry is created, modified or removed. -/
theorem allocate_zero_returns_none_unchanged (cm : ChunkManager) (align : Nat) :
    cm.allocate 0 align = some (none, cm) ∧
    cm.allocate 0 align ≠ none ∧
    (stepAlloc (cm.allocate 0 align)).chunks = cm.chunks ∧
    (stepAlloc (cm.allocate 0 align)).unused_blocks = cm.unused_blocks := by
  refine ⟨allocate_zero_eq cm align, ?_, ?_, ?_⟩ <;> simp [allocate_zero_eq cm align, stepAlloc]

/-- C2: under every sequence of `allocate`/`free_unchecked` calls respecting
the free precondition, the blocks partition the chunk (lengths sum to the
chunk size, one doubly-linked chain from offset 0).  REFUTED by the code: the
split paths of `allocate` never update the successor's `pre` pointer, so after
`add_chunk(128); allocate(3,1); allocate(1,1); free(0); allocate(1,1)` the
block at offset 3 has `pre = Some 0` although its predecessor is the block at
offset 1; three further legal operations make `free_unchecked` merge
non-adjacent blocks and a subsequent `allocate` overwrite a live block,
leaving the chunk's block lengths summing to 126 ≠ 128. -/
theorem split_breaks_partition_invariant :
    oneChunk128.allocate 3 1 = some (some ⟨0, 0⟩, c2s1) ∧
    c2s1.allocate 1 1 = some (some ⟨3, 0⟩, c2s2) ∧
    blockUsedAt c2s2 ⟨0, 0⟩ = true ∧
    c2s2.free_unchecked ⟨0, 0⟩ = some c2s3 ∧
    c2s3.allocate 1 1 = some (some ⟨0, 0⟩, c2s4) ∧
    blockAt c2s4 0 3 = some ⟨1, true, some 0, some 4⟩ ∧
    blockAt c2s4 0 1 = some ⟨2, false, some 0, some 3⟩ ∧
    c2s4.allocate 2 1 = some (some ⟨1, 0⟩, c2s5) ∧
    blockUsedAt c2s5 ⟨0, 0⟩ = true ∧
    c2s5.free_unchecked ⟨0, 0⟩ = some c2s6 ∧
    blockUsedAt c2s6 ⟨3, 0⟩ = true ∧
    c2s6.free_unchecked ⟨3, 0⟩ = some c2s7 ∧
    c2s7.allocate 1 1 = some (some ⟨0, 0⟩, c2s8) ∧
    chunkSize c2s8 0 = some 128 ∧
    chunkLenSum c2s8 0 = some 126 := by decide

/-- C4: iterating a chunk's block chain never shows two consecutive free
blocks.  REFUTED by the code: after `add_chunk(128); allocate(2,1);
allocate(1,1); free(0); allocate(1,1); free(2)` — every free applied to a
block then in use — the chain holds block 1 (free, length 1, `next = 2`) and
block 2 (free, length 126): two consecutive free blocks that were not
coalesced, because the split left block 2's `pre` pointing at block 0.  The
code's own test helper `iter_blocks` panics on exactly this configuration. -/
theorem free_leaves_adjacent_free_blocks :
    oneChunk128.allocate 2 1 = some (some ⟨0, 0⟩, c4s1) ∧
    c4s1.allocate 1 1 = some (some ⟨2, 0⟩, c4s2) ∧
    blockUsedAt c4s2 ⟨0, 0⟩ = true ∧
    c4s2.free_unchecked ⟨0, 0⟩ = some c4s3 ∧
    c4s3.allocate 1 1 = some (some ⟨0, 0⟩, c4s4) ∧
    blockUsedAt c4s4 ⟨2, 0⟩ = true ∧
    c4s4.free_unchecked ⟨2, 0⟩ = some c4s5 ∧
    blockAt c4s5 0 1 = some ⟨1, false, some 0, some 2⟩ ∧
    blockAt c4s5 0 2 = some ⟨126, false, some 0, none⟩ := by decide


/-- Lookup after erasure: the erased key is gone, others are untouched. -/
theorem mlookup_merase {α : Type} (k k' : Nat) :
    ∀ m : List (Nat × α), mlookup (merase m k) k' = if k' = k then none else mlookup m k' := by
  intro m
  induction m with
  | nil => simp [merase, mlookup]
  | cons p rest ih =>
    obtain ⟨a, v⟩ := p
    by_cases hk : k = a
    · subst hk
      have h1 : merase ((k, v) :: rest) k = merase rest k := by simp [merase]
      rw [h1, ih]
      by_cases h' : k' = k <;> simp [mlookup, h']
    · have h1 : merase ((a, v) :: rest) k = (a, v) :: merase rest k := by
        simp [merase, hk]
      rw [h1]
      by_cases h' : k' = a
      · subst h'
        have h2 : ¬ k' = k := fun hh => hk hh.symm
        simp [mlookup, h2]
      · simp [mlookup, h', ih]

/-- Lookup after insertion: the inserted key maps to the new value, others are
untouched. -/
theorem mlookup_minsert {α : Type} (m : List (Nat × α)) (k k' : Nat) (v : α) :
    mlookup (minsert m k v) k' = if k' = k then some v else mlookup m k' := by
  unfold minsert
  by_cases h : k' = k <;> simp [mlookup, h, mlookup_merase]

/-- Erasing an absent key is a no-op. -/
theorem merase_of_lookup_none {α : Type} (k : Nat) :
    ∀ m : List (Nat × α), mlookup m k = none → merase m k = m := by
  intro m
  induction m with
  | nil => intro _; rfl
  | cons p rest ih =>
    obtain ⟨a, v⟩ := p
    intro h
    by_cases hk : k = a
    · subst hk; simp [mlookup] at h
    · have h2 : ¬ (k = a) := hk
      simp only [mlookup, if_neg hk] at h
      simp [merase, hk, ih h]

/-- A successful scan exits through one of the two success branches, so the
returned offset is the candidate's (already aligned) offset or the candidate's
offset advanced by the padding. -/
theorem allocLoop_offset_mod (cm : ChunkManager) (len align : Nat) :
    ∀ (cands : List (Nat × BlockIndex)) (bi : BlockIndex) (cm' : ChunkManager),
      allocLoop cm len align cands = some (some bi, cm') → bi.offset % align = 0 := by
  intro cands
  induction cands with
  | nil => intro bi cm' h; simp [allocLoop] at h
  | cons c rest ih =>
    intro bi cm' h
    obtain ⟨ulen, cbi⟩ := c
    simp only [allocLoop] at h
    cases hc : mlookup cm.chunks cbi.chunk_index with
    | none => simp only [hc] at h; exact absurd h (by simp)
    | some chunk =>
      simp only [hc] at h
      cases hb : mlookup chunk.blocks cbi.offset with
      | none => simp only [hb] at h; exact absurd h (by simp)
      | some block =>
        simp only [hb] at h
        by_cases ha : align = 0
        · rw [if_pos ha] at h; exact absurd h (by simp)
        · rw [if_neg ha] at h
          by_cases hm : cbi.offset % align = 0
          · rw [if_pos hm] at h
            by_cases hs : block.len < len
            · rw [if_pos hs] at h; exact ih bi cm' h
            · rw [if_neg hs] at h
              simp only [Option.some.injEq, Prod.mk.injEq] at h
              obtain ⟨h1, h2⟩ := h
              subst h1
              exact hm
          · rw [if_neg hm] at h
            cases hcs : checkedSub block.len (align - cbi.offset % align) with
            | none => simp only [hcs] at h; exact absurd h (by simp)
            | some avail =>
              simp only [hcs] at h
              by_cases hs : avail < len
              · rw [if_pos hs] at h; exact ih bi cm' h
              · rw [if_neg hs] at h
                simp only [Option.some.injEq, Prod.mk.injEq] at h
                obtain ⟨h1, h2⟩ := h
                subst h1
                show (cbi.offset + (align - cbi.offset % align)) % align = 0
                have hpos : 0 < align := Nat.pos_of_ne_zero ha
                have hlt : cbi.offset % align < align := Nat.mod_lt _ hpos
                have hdm := Nat.div_add_mod cbi.offset align
                have h2 : cbi.offset + (align - cbi.offset % align)
                    = align * (cbi.offset / align) + align := by omega
                rw [h2, ← Nat.mul_succ]
                exact Nat.mul_mod_right align _

/-- An exhausted scan leaves the manager unchanged. -/
theorem allocLoop_none_eq (cm : ChunkManager) (len align : Nat) :
    ∀ (cands : List (Nat × BlockIndex)) (cm' : ChunkManager),
      allocLoop cm len align cands = some (none, cm') → cm' = cm := by
  intro cands
  induction cands with
  | nil =>
    intro cm' h
    simp only [allocLoop, Option.some.injEq, Prod.mk.injEq, true_and] at h
    exact h.symm
  | cons c rest ih =>
    intro cm' h
    obtain ⟨ulen, cbi⟩ := c
    simp only [allocLoop] at h
    cases hc : mlookup cm.chunks cbi.chunk_index with
    | none => simp only [hc] at h; exact absurd h (by simp)
    | some chunk =>
      simp only [hc] at h
      cases hb : mlookup chunk.blocks cbi.offset with
      | none => simp only [hb] at h; exact absurd h (by simp)
      | some block =>
        simp only [hb] at h
        by_cases ha : align = 0
        · rw [if_pos ha] at h; exact absurd h (by simp)
        · rw [if_neg ha] at h
          by_cases hm : cbi.offset % align = 0
          · rw [if_pos hm] at h
            by_cases hs : block.len < len
            · rw [if_pos hs] at h; exact ih cm' h
            · rw [if_neg hs] at h; exact absurd h (by simp)
          · rw [if_neg hm] at h
            cases hcs : checkedSub block.len (align - cbi.offset % align) with
            | none => simp only [hcs] at h; exact absurd h (by simp)
            | some avail =>
              simp only [hcs] at h
              by_cases hs : avail < len
              · rw [if_pos hs] at h; exact ih cm' h
              · rw [if_neg hs] at h; exact absurd h (by simp)

/-- A failed `allocate` (no fitting free block) leaves the manager unchanged. -/
theorem allocate_none_eq (cm : ChunkManager) (len align : Nat) (cm' : ChunkManager)
    (h : cm.allocate len align = some (none, cm')) : cm' = cm := by
  unfold ChunkManager.allocate at h
  by_cases hz : len = 0
  · rw [if_pos hz] at h
    simp only [Option.some.injEq, Prod.mk.injEq, true_and] at h
    exact h.symm
  · rw [if_neg hz] at h
    exact allocLoop_none_eq cm len align _ cm' h

/-- C7: whenever `ChunkManager::allocate(len, alignment)` with a positive
length and a power-of-two alignment returns a `BlockIndex`, that index's
chunk-local offset is a multiple of the alignment. -/
theorem allocate_offset_is_aligned (cm : ChunkManager) (len align : Nat)
    (bi : BlockIndex) (cm' : ChunkManager) (hlen : 0 < len)
    (hpow : ∃ k, align = 2 ^ k)
    (h : cm.allocate len align = some (some bi, cm')) :
    bi.offset % align = 0 := by
  obtain ⟨_, _⟩ := hpow
  unfold ChunkManager.allocate at h
  rw [if_neg (Nat.pos_iff_ne_zero.mp hlen)] at h
  exact allocLoop_offset_mod cm len align _ bi cm' h

/-- C7 witness: the theorem applied to a one-chunk manager and the call
`allocate(4, 2)`, which returns offset 0. -/
theorem allocate_offset_is_aligned_witness :
    0 < 4 ∧ (∃ k, (2 : Nat) = 2 ^ k) ∧ (BlockIndex.mk 0 0).offset % 2 = 0 :=
  ⟨by decide, ⟨1, rfl⟩,
   allocate_offset_is_aligned c7cm 4 2 ⟨0, 0⟩ c7cm2 (by decide) ⟨1, rfl⟩ (by decide)⟩

/-- C5: when no existing free block satisfies the request (the chunk-manager
scan returned `None`), `BlockBasedAllocator::allocate` provisions exactly one
new chunk of size `2 × max(total committed bytes, requested size)`, the
request succeeds against that chunk at offset 0, and only a provider refusal
makes the call return nothing.  (`hfresh` states that the key `chunks.len()`
is not in use, which pins down "exactly one new chunk".) -/
theorem allocate_growth_exactly_one_chunk (provide : Nat → Bool)
    (a : BlockBasedAllocator) (size align : Nat) (cm₁ : ChunkManager)
    (hsize : 0 < size)
    (hfail : a.chunk_manager.allocate size align = some (none, cm₁))
    (hfresh : mlookup a.chunk_manager.chunks a.chunk_manager.chunks.length = none) :
    (provide (max a.total_size size * 2) = true →
      ∃ c : AllocatedChuck,
        BlockBasedAllocator.allocate provide a size align
          = some (some (⟨0, a.chunk_manager.chunks.length⟩,
              ⟨⟨insertUnused a.chunk_manager.unused_blocks size
                   (max a.total_size size * 2 - size) a.chunk_manager.chunks.length,
                minsert a.chunk_manager.chunks a.chunk_manager.chunks.length c⟩,
               a.total_size + max a.total_size size * 2⟩)) ∧
        c.device_memory = max a.total_size size * 2 ∧
        2 * max a.total_size size ≤ c.device_memory ∧
        mlookup c.blocks 0 = some ⟨size, true, none, some size⟩ ∧
        mlookup c.blocks size
          = some ⟨max a.total_size size * 2 - size, false, some 0, none⟩ ∧
        (minsert a.chunk_manager.chunks a.chunk_manager.chunks.length c).length
          = a.chunk_manager.chunks.length + 1 ∧
        (∀ k, k ≠ a.chunk_manager.chunks.length →
          mlookup (minsert a.chunk_manager.chunks a.chunk_manager.chunks.length c) k
            = mlookup a.chunk_manager.chunks k)) ∧
    (provide (max a.total_size size * 2) = false →
      BlockBasedAllocator.allocate provide a size align = some none) := by
  have hcm : cm₁ = a.chunk_manager := allocate_none_eq _ _ _ _ hfail
  subst hcm
  have hs0 : size ≠ 0 := Nat.pos_iff_ne_zero.mp hsize
  have hTs : size ≤ max a.total_size size := Nat.le_max_right _ _
  have hL0 : max a.total_size size * 2 ≠ 0 := by omega
  have hLs : ¬ max a.total_size size * 2 = size := by omega
  have hsub : checkedSub (max a.total_size size * 2) size
      = some (max a.total_size size * 2 - size) := by
    unfold checkedSub
    rw [if_pos (by omega)]
  constructor
  · intro hp
    refine ⟨⟨minsert [(0, ⟨size, true, none, some size⟩)] size
        ⟨max a.total_size size * 2 - size, false, some 0, none⟩,
        max a.total_size size * 2⟩, ?_, rfl, ?_, ?_, ?_, ?_, ?_⟩
    · simp only [BlockBasedAllocator.allocate, hfail, capacity_with_allocate,
        ChunkManager.add_chunk_and_allocate, AllocatedChuck.new_and_allocated, hp, if_true,
        if_neg hL0, if_neg hs0, if_neg hLs, hsub, ChunkManager.get_device_memory,
        mlookup_minsert, if_pos rfl]
      rfl
    · show 2 * max a.total_size size ≤ max a.total_size size * 2
      omega
    · rw [mlookup_minsert]
      rw [if_neg (by omega : (0 : Nat) ≠ size)]
      simp [mlookup]
    · rw [mlookup_minsert, if_pos rfl]
    · unfold minsert
      rw [merase_of_lookup_none _ _ hfresh]
      simp
    · intro k hk
      rw [mlookup_minsert, if_neg hk]
  · intro hp
    simp only [BlockBasedAllocator.allocate, hfail, capacity_with_allocate, hp]
    simp

/-- C5 witness: the theorem applied to an empty allocator, an always-granting
provider and `allocate(4, 1)`: one chunk of `2 * max 0 4 = 8` bytes is
provisioned and the request succeeds in it at offset 0. -/
theorem allocate_growth_witness :
    0 < 4 ∧
    ∃ c : AllocatedChuck,
      BlockBasedAllocator.allocate (fun _ => true) c5a 4 1
        = some (some (⟨0, c5a.chunk_manager.chunks.length⟩,
            ⟨⟨insertUnused c5a.chunk_manager.unused_blocks 4 (max c5a.total_size 4 * 2 - 4)
                 c5a.chunk_manager.chunks.length,
              minsert c5a.chunk_manager.chunks c5a.chunk_manager.chunks.length c⟩,
             c5a.total_size + max c5a.total_size 4 * 2⟩)) ∧
      c.device_memory = max c5a.total_size 4 * 2 := by
  refine ⟨by decide, ?_⟩
  obtain ⟨c, h1, h2, _⟩ := (allocate_growth_exactly_one_chunk (fun _ => true) c5a 4 1
    c5a.chunk_manager (by decide) (by decide) (by decide)).1 rfl
  exact ⟨c, h1, h2⟩

/-- Sum of a cons of segments. -/
theorem sumLens_cons (l : Nat) (u : Bool) (rest : List (Nat × Bool)) :
    sumLens ((l, u) :: rest) = l + sumLens rest := by
  simp [sumLens]

/-- Sum of appended segment lists. -/
theorem sumLens_append (A B : List (Nat × Bool)) :
    sumLens (A ++ B) = sumLens A + sumLens B := by
  simp [sumLens]

/-- The offset of the last segment of `A ++ [a]`. -/
theorem preOf_concat (a : Nat × Bool) :
    ∀ (A : List (Nat × Bool)) (o : Nat) (p : Option Nat),
      preOf o p (A ++ [a]) = some (o + sumLens A) := by
  intro A
  induction A with
  | nil => intro o p; obtain ⟨l, u⟩ := a; simp [preOf, sumLens]
  | cons x A' ih =>
    intro o p
    obtain ⟨l, u⟩ := x
    show preOf (o + l) (some o) (A' ++ [a]) = some (o + sumLens ((l, u) :: A'))
    rw [ih, sumLens_cons, Nat.add_assoc]

/-- Boundaries lie at or above the base offset. -/
theorem bnds_mem_lower : ∀ (segs : List (Nat × Bool)) (o x : Nat), x ∈ bnds o segs → o ≤ x := by
  intro segs
  induction segs with
  | nil => intro o x h; simp [bnds] at h
  | cons s rest ih =>
    intro o x h
    obtain ⟨l, u⟩ := s
    simp only [bnds, List.mem_cons] at h
    rcases h with h | h
    · omega
    · have := ih (o + l) x h
      omega

/-- Boundaries of a positive-length segment list lie strictly below its end. -/
theorem bnds_mem_upper : ∀ (segs : List (Nat × Bool)) (o x : Nat),
    (∀ s ∈ segs, 0 < s.1) → x ∈ bnds o segs → x < o + sumLens segs := by
  intro segs
  induction segs with
  | nil => intro o x _ h; simp [bnds] at h
  | cons s rest ih =>
    intro o x hpos h
    obtain ⟨l, u⟩ := s
    have hl : 0 < l := hpos (l, u) (by simp)
    simp only [bnds, List.mem_cons] at h
    rw [sumLens_cons]
    rcases h with h | h
    · have hs : 0 ≤ sumLens rest := Nat.zero_le _
      omega
    · have := ih (o + l) x (fun s hs => hpos s (by simp [hs])) h
      omega

/-- Boundaries of an appended segment list. -/
theorem bnds_append : ∀ (A B : List (Nat × Bool)) (o : Nat),
    bnds o (A ++ B) = bnds o A ++ bnds (o + sumLens A) B := by
  intro A
  induction A with
  | nil => intro B o; simp [bnds, sumLens]
  | cons s A' ih =>
    intro B o
    obtain ⟨l, u⟩ := s
    show o :: bnds (o + l) (A' ++ B) = (o :: bnds (o + l) A') ++ bnds (o + sumLens ((l, u) :: A')) B
    rw [ih, sumLens_cons, ← Nat.add_assoc]
    rfl

/-- A non-boundary offset has no block in the rendered chain. -/
theorem mkChain_lookup_not_mem : ∀ (segs : List (Nat × Bool)) (o : Nat) (p : Option Nat)
    (k : Nat), k ∉ bnds o segs → mlookup (mkChain o p segs) k = none := by
  intro segs
  induction segs with
  | nil => intro o p k _; rfl
  | cons s rest ih =>
    intro o p k h
    obtain ⟨l, u⟩ := s
    simp only [bnds, List.mem_cons, not_or] at h
    show mlookup ((o, _) :: mkChain (o + l) (some o) rest) k = none
    simp only [mlookup, if_neg h.1]
    exact ih (o + l) (some o) k h.2

/-- A successful lookup in a rendered chain locates the key as a segment-list
zipper. -/
theorem mkChain_lookup_zip : ∀ (segs : List (Nat × Bool)) (o : Nat) (p : Option Nat)
    (k : Nat) (b : Block), mlookup (mkChain o p segs) k = some b →
    ∃ A B, segs = A ++ (b.len, b.used) :: B ∧ k = o + sumLens A ∧
      b.pre = preOf o p A ∧ b.next = (if B.isEmpty then none else some (k + b.len)) := by
  intro segs
  induction segs with
  | nil => intro o p k b h; simp [mkChain, mlookup] at h
  | cons s rest ih =>
    intro o p k b h
    obtain ⟨l, u⟩ := s
    simp only [mkChain, mlookup] at h
    by_cases hk : k = o
    · rw [if_pos hk] at h
      subst hk
      obtain rfl := (Option.some.injEq _ _).mp h
      refine ⟨[], rest, by simp, by simp [sumLens], rfl, rfl⟩
    · rw [if_neg hk] at h
      obtain ⟨A', B, hseg, hksum, hpre, hnext⟩ := ih (o + l) (some o) k b h
      refine ⟨(l, u) :: A', B, by rw [hseg]; rfl, ?_, hpre, hnext⟩
      rw [sumLens_cons, ← Nat.add_assoc]
      exact hksum

/-- Lookup in a rendered chain at the offset of an explicitly-located
segment. -/
theorem mkChain_lookup_at : ∀ (A : List (Nat × Bool)) (x : Nat × Bool)
    (B : List (Nat × Bool)) (o : Nat) (p : Option Nat), (∀ s ∈ A, 0 < s.1) →
    mlookup (mkChain o p (A ++ x :: B)) (o + sumLens A)
      = some ⟨x.1, x.2, preOf o p A,
          if B.isEmpty then none else some (o + sumLens A + x.1)⟩ := by
  intro A
  induction A with
  | nil =>
    intro x B o p _
    obtain ⟨l, u⟩ := x
    show mlookup ((o, _) :: mkChain (o + l) (some o) B) (o + sumLens []) = _
    have h0 : o + sumLens ([] : List (Nat × Bool)) = o := by simp [sumLens]
    rw [h0]
    simp only [mlookup, if_pos rfl]
    simp [sumLens, preOf]
  | cons s A' ih =>
    intro x B o p hpos
    obtain ⟨l, u⟩ := s
    have hl : 0 < l := hpos (l, u) (by simp)
    have hkey : o + sumLens ((l, u) :: A') = (o + l) + sumLens A' := by
      rw [sumLens_cons, ← Nat.add_assoc]
    show mlookup ((o, _) :: mkChain (o + l) (some o) (A' ++ x :: B)) (o + sumLens ((l, u) :: A')) = _
    have hne : o + sumLens ((l, u) :: A') ≠ o := by
      rw [sumLens_cons]; omega
    simp only [mlookup, if_neg hne]
    rw [hkey, ih x B (o + l) (some o) (fun s hs => hpos s (by simp [hs]))]
    rfl

/-- Neighbourhood of a free block in a well-formed chunk: positive length, no
block strictly inside it, a used successor exactly at its end (if any), and a
used predecessor strictly before it (if any). -/
theorem free_block_neighborhood (c : AllocatedChuck) (hwf : ChunkWF c)
    (o : Nat) (block : Block) (hb : mlookup c.blocks o = some block)
    (hused : block.used = false) :
    0 < block.len ∧
    (∀ j, 0 < j → j < block.len → mlookup c.blocks (o + j) = none) ∧
    (block.next = none ∨ ∃ nb, block.next = some (o + block.len) ∧
        mlookup c.blocks (o + block.len) = some nb ∧ nb.used = true) ∧
    (block.pre = none ∨ ∃ p pb, block.pre = some p ∧ p < o ∧
        mlookup c.blocks p = some pb ∧ pb.used = true) := by
  obtain ⟨segs, hpos, hsum, hadj, hL⟩ := hwf
  have hb' : mlookup (mkChain 0 none segs) o = some block := by rw [← hL]; exact hb
  obtain ⟨A, B, hseg, ho, hpre, hnext⟩ := mkChain_lookup_zip segs 0 none o block hb'
  have hoA : o = sumLens A := by omega
  have hposA : ∀ s ∈ A, 0 < s.1 := fun s hs =>
    hpos s (by rw [hseg]; exact List.mem_append_left _ hs)
  have hlen : 0 < block.len := by
    have hm : (block.len, block.used) ∈ segs := by
      rw [hseg]; exact List.mem_append_right _ (by simp)
    exact hpos _ hm
  have hadj' : NoAdjFree (A ++ (block.len, false) :: B) := by
    rw [hseg, hused] at hadj; exact hadj
  refine ⟨hlen, ?_, ?_, ?_⟩
  · intro j hj hjl
    rw [hL]
    apply mkChain_lookup_not_mem
    rw [hseg, bnds_append]
    intro hmem
    rcases List.mem_append.mp hmem with hmem | hmem
    · have := bnds_mem_upper A 0 (o + j) hposA hmem
      omega
    · simp only [bnds, List.mem_cons] at hmem
      rcases hmem with hmem | hmem
      · omega
      · have := bnds_mem_lower B _ _ hmem
        omega
  · cases hB : B with
    | nil =>
      left
      rw [hB] at hnext
      simpa using hnext
    | cons nbseg B' =>
      right
      rw [hB] at hseg hnext
      simp only [List.isEmpty_cons, if_neg] at hnext
      have hseg' : segs = (A ++ [(block.len, block.used)]) ++ nbseg :: B' := by
        rw [hseg]; simp
      have hposA' : ∀ s ∈ A ++ [(block.len, block.used)], 0 < s.1 := by
        intro s hs
        rcases List.mem_append.mp hs with hs | hs
        · exact hposA s hs
        · simp at hs; subst hs; exact hlen
      have hlook := mkChain_lookup_at (A ++ [(block.len, block.used)]) nbseg B' 0 none hposA'
      have hsingle : sumLens [(block.len, block.used)] = block.len := by simp [sumLens]
      have hsum' : 0 + sumLens (A ++ [(block.len, block.used)]) = o + block.len := by
        rw [sumLens_append]
        omega
      rw [hsum', ← hseg'] at hlook
      have hnb2 : nbseg.2 = true := by
        have h2 : List.Chain' (fun a b => a.2 = true ∨ b.2 = true)
            ((block.len, false) :: nbseg :: B') := by
          have := (List.chain'_append.mp hadj').2.1
          rw [hB] at this
          exact this
        have hrel := (List.chain'_cons.mp h2).1
        simpa using hrel
      refine ⟨⟨nbseg.1, nbseg.2, preOf 0 none (A ++ [(block.len, block.used)]),
        if B'.isEmpty then none else some (o + block.len + nbseg.1)⟩, ?_, ?_, hnb2⟩
      · simpa using hnext
      · rw [hL]
        exact hlook
  · rcases List.eq_nil_or_concat A with hA | ⟨A', a, hA⟩
    · left
      rw [hA] at hpre
      simpa [preOf] using hpre
    · right
      rw [List.concat_eq_append] at hA
      rw [hA] at hpre
      rw [preOf_concat] at hpre
      have ha1 : 0 < a.1 := hposA a (by rw [hA]; simp)
      have hsingle : sumLens [a] = a.1 := by simp [sumLens]
      have hoval : o = sumLens A' + a.1 := by
        rw [hoA, hA, sumLens_append]
        omega
      have hseg' : segs = A' ++ a :: ((block.len, block.used) :: B) := by
        rw [hseg, hA]; simp
      have hposA'' : ∀ s ∈ A', 0 < s.1 := fun s hs => hposA s (by rw [hA]; simp [hs])
      have hlook := mkChain_lookup_at A' a ((block.len, block.used) :: B) 0 none hposA''
      rw [← hseg'] at hlook
      have ha2 : a.2 = true := by
        have hadj2 : List.Chain' (fun x y => x.2 = true ∨ y.2 = true)
            ((A' ++ [a]) ++ (block.len, false) :: B) := by
          rw [hA] at hadj'; exact hadj'
        have hrel := (List.chain'_append.mp hadj2).2.2 a (by rw [List.getLast?_concat]; rfl)
          ((block.len, false)) rfl
        simpa using hrel
      refine ⟨0 + sumLens A', ⟨a.1, a.2, preOf 0 none A',
        if ((block.len, block.used) :: B).isEmpty then none
        else some (0 + sumLens A' + a.1)⟩, hpre, by omega, ?_, ha2⟩
      rw [hL]
      exact hlook

/-- Membership in the empty unused index. -/
theorem memU_nil (l : Nat) (bi : BlockIndex) : ¬ memU [] l bi := by
  rintro ⟨s, hs, _⟩
  simp at hs

/-- Membership in a cons of the unused index. -/
theorem memU_cons (p : Nat × List BlockIndex) (u : List (Nat × List BlockIndex))
    (l : Nat) (bi : BlockIndex) :
    memU (p :: u) l bi ↔ (l = p.1 ∧ bi ∈ p.2) ∨ memU u l bi := by
  obtain ⟨a, b⟩ := p
  constructor
  · rintro ⟨s, hmem, hbi⟩
    rcases List.mem_cons.mp hmem with h | h
    · obtain ⟨h1, h2⟩ := Prod.mk.injEq .. ▸ h
      left
      exact ⟨h1, h2 ▸ hbi⟩
    · right
      exact ⟨s, h, hbi⟩
  · rintro (⟨h1, h2⟩ | ⟨s, hmem, hbi⟩)
    · exact ⟨b, by simp [h1], h2⟩
    · exact ⟨s, List.mem_cons_of_mem _ hmem, hbi⟩

/-- `removeEntry` removes exactly the requested element. -/
theorem mem_removeEntry (x bi : BlockIndex) :
    ∀ s : List BlockIndex, bi ∈ removeEntry s x ↔ bi ∈ s ∧ bi ≠ x := by
  intro s
  induction s with
  | nil => simp [removeEntry]
  | cons y rest ih =>
    by_cases hy : y = x
    · rw [show removeEntry (y :: rest) x = removeEntry rest x from by simp [removeEntry, hy]]
      rw [ih]
      subst hy
      constructor
      · rintro ⟨h1, h2⟩; exact ⟨List.mem_cons_of_mem _ h1, h2⟩
      · rintro ⟨h1, h2⟩
        rcases List.mem_cons.mp h1 with h | h
        · exact absurd h h2
        · exact ⟨h, h2⟩
    · rw [show removeEntry (y :: rest) x = y :: removeEntry rest x from by
        simp [removeEntry, hy]]
      constructor
      · intro h
        rcases List.mem_cons.mp h with h | h
        · subst h; exact ⟨List.mem_cons_self _ _, hy⟩
        · obtain ⟨h1, h2⟩ := (ih).mp h
          exact ⟨List.mem_cons_of_mem _ h1, h2⟩
      · rintro ⟨h1, h2⟩
        rcases List.mem_cons.mp h1 with h | h
        · subst h; exact List.mem_cons_self _ _
        · exact List.mem_cons_of_mem _ ((ih).mpr ⟨h, h2⟩)

/-- Membership after `insertUnused`: exactly the inserted entry is added. -/
theorem memU_insertUnused (off len ci : Nat) :
    ∀ (u : List (Nat × List BlockIndex)) (l : Nat) (bi : BlockIndex),
      memU (insertUnused u off len ci) l bi ↔
        (l = len ∧ bi = ⟨off, ci⟩) ∨ memU u l bi := by
  intro u
  induction u with
  | nil =>
    intro l bi
    rw [show insertUnused [] off len ci = [(len, [⟨off, ci⟩])] from rfl]
    rw [memU_cons]
    simp [memU_nil]
  | cons p rest ih =>
    intro l bi
    obtain ⟨l₁, s₁⟩ := p
    by_cases h1 : len < l₁
    · rw [show insertUnused ((l₁, s₁) :: rest) off len ci
          = (len, [⟨off, ci⟩]) :: (l₁, s₁) :: rest from by simp [insertUnused, h1]]
      simp only [memU_cons, List.mem_singleton]
    · by_cases h2 : len = l₁
      · rw [show insertUnused ((l₁, s₁) :: rest) off len ci
            = (l₁, if (⟨off, ci⟩ : BlockIndex) ∈ s₁ then s₁
                   else (⟨off, ci⟩ : BlockIndex) :: s₁) :: rest from by
          simp [insertUnused, h1, h2]]
        rw [memU_cons, memU_cons]
        subst h2
        by_cases hin : (⟨off, ci⟩ : BlockIndex) ∈ s₁
        · rw [if_pos hin]
          constructor
          · tauto
          · rintro (⟨rfl, rfl⟩ | h) <;> tauto
        · rw [if_neg hin]
          simp only [List.mem_cons]
          constructor
          · rintro (⟨rfl, h | h⟩ | h) <;> tauto
          · rintro (⟨rfl, rfl⟩ | ⟨rfl, h⟩ | h) <;> tauto
      · rw [show insertUnused ((l₁, s₁) :: rest) off len ci
            = (l₁, s₁) :: insertUnused rest off len ci from by simp [insertUnused, h1, h2]]
        rw [memU_cons, memU_cons, ih]
        tauto

/-- Membership after `removeUnused` on an index with distinct bucket keys:
exactly the removed entry is gone. -/
theorem memU_removeUnused (off len ci : Nat) :
    ∀ (u : List (Nat × List BlockIndex)), (u.map Prod.fst).Nodup →
      ∀ (l : Nat) (bi : BlockIndex),
      memU (removeUnused u off len ci) l bi ↔
        (memU u l bi ∧ ¬(l = len ∧ bi = ⟨off, ci⟩)) := by
  intro u
  induction u with
  | nil =>
    intro _ l bi
    rw [show removeUnused [] off len ci = [] from rfl]
    simp [memU_nil]
  | cons p rest ih =>
    intro hnd l bi
    obtain ⟨l₁, s₁⟩ := p
    simp only [List.map_cons, List.nodup_cons] at hnd
    obtain ⟨hkey, hnd'⟩ := hnd
    by_cases h1 : len = l₁
    · subst h1
      rw [show removeUnused ((len, s₁) :: rest) off len ci
          = (if removeEntry s₁ ⟨off, ci⟩ = [] then rest
             else (len, removeEntry s₁ ⟨off, ci⟩) :: rest) from by
        simp [removeUnused]]
      have hrestlen : ∀ bi', ¬ memU rest len bi' := by
        rintro bi' ⟨s, hs, _⟩
        exact hkey (List.mem_map.mpr ⟨(len, s), hs, rfl⟩)
      by_cases hemp : removeEntry s₁ ⟨off, ci⟩ = []
      · rw [if_pos hemp]
        rw [memU_cons]
        constructor
        · intro h
          refine ⟨Or.inr h, ?_⟩
          rintro ⟨rfl, rfl⟩
          exact hrestlen _ h
        · rintro ⟨h | h, hne⟩
          · obtain ⟨rfl, hbi⟩ := h
            have : bi ∈ removeEntry s₁ ⟨off, ci⟩ :=
              (mem_removeEntry _ _ _).mpr ⟨hbi, fun hh => hne ⟨rfl, hh⟩⟩
            rw [hemp] at this
            simp at this
          · exact h
      · rw [if_neg hemp]
        rw [memU_cons, memU_cons]
        constructor
        · rintro (⟨rfl, hbi⟩ | h)
          · obtain ⟨hbi', hne⟩ := (mem_removeEntry _ _ _).mp hbi
            exact ⟨Or.inl ⟨rfl, hbi'⟩, fun hh => hne hh.2⟩
          · refine ⟨Or.inr h, ?_⟩
            rintro ⟨rfl, rfl⟩
            exact hrestlen _ h
        · rintro ⟨h | h, hne⟩
          · obtain ⟨rfl, hbi⟩ := h
            exact Or.inl ⟨rfl, (mem_removeEntry _ _ _).mpr ⟨hbi, fun hh => hne ⟨rfl, hh⟩⟩⟩
          · exact Or.inr h
    · rw [show removeUnused ((l₁, s₁) :: rest) off len ci
          = (l₁, s₁) :: removeUnused rest off len ci from by
        simp [removeUnused, h1]]
      rw [memU_cons, memU_cons, ih hnd']
      constructor
      · rintro (h | ⟨h, hne⟩)
        · exact ⟨Or.inl h, fun hh => h1 (hh.1.symm ▸ h.1.symm ▸ rfl)⟩
        · exact ⟨Or.inr h, hne⟩
      · rintro ⟨h | h, hne⟩
        · exact Or.inl h
        · exact Or.inr ⟨h, hne⟩

/-- Keys after `insertUnused` are the inserted length or old keys. -/
theorem insertUnused_keys_mem (off len ci : Nat) :
    ∀ (u : List (Nat × List BlockIndex)) (k : Nat),
      k ∈ (insertUnused u off len ci).map Prod.fst → k = len ∨ k ∈ u.map Prod.fst := by
  intro u
  induction u with
  | nil => intro k h; simp [insertUnused] at h; exact Or.inl h
  | cons p rest ih =>
    intro k h
    obtain ⟨l₁, s₁⟩ := p
    by_cases h1 : len < l₁
    · rw [show insertUnused ((l₁, s₁) :: rest) off len ci
          = (len, [⟨off, ci⟩]) :: (l₁, s₁) :: rest from by simp [insertUnused, h1]] at h
      simpa using h
    · by_cases h2 : len = l₁
      · rw [show insertUnused ((l₁, s₁) :: rest) off len ci
            = (l₁, if (⟨off, ci⟩ : BlockIndex) ∈ s₁ then s₁
                   else (⟨off, ci⟩ : BlockIndex) :: s₁) :: rest from by
          simp [insertUnused, h1, h2]] at h
        simp only [List.map_cons, List.mem_cons] at h
        rcases h with h | h
        · right; simp [h]
        · right; simp [h]
      · rw [show insertUnused ((l₁, s₁) :: rest) off len ci
            = (l₁, s₁) :: insertUnused rest off len ci from by simp [insertUnused, h1, h2]] at h
        simp only [List.map_cons, List.mem_cons] at h
        rcases h with h | h
        · right; simp [h]
        · rcases ih k h with h | h
          · exact Or.inl h
          · right; simp [h]

/-- `insertUnused` keeps the bucket keys strictly sorted. -/
theorem UWF_insertUnused (off len ci : Nat) :
    ∀ u : List (Nat × List BlockIndex), UWF u → UWF (insertUnused u off len ci) := by
  intro u
  induction u with
  | nil => intro _; simp [UWF, insertUnused]
  | cons p rest ih =>
    intro hwf
    obtain ⟨l₁, s₁⟩ := p
    unfold UWF at hwf
    simp only [List.map_cons, List.pairwise_cons] at hwf
    obtain ⟨hall, hrest⟩ := hwf
    by_cases h1 : len < l₁
    · rw [show insertUnused ((l₁, s₁) :: rest) off len ci
          = (len, [⟨off, ci⟩]) :: (l₁, s₁) :: rest from by simp [insertUnused, h1]]
      unfold UWF
      simp only [List.map_cons, List.pairwise_cons]
      refine ⟨?_, hall, hrest⟩
      intro k hk
      rcases List.mem_cons.mp hk with h | h
      · omega
      · have := hall k h
        omega
    · by_cases h2 : len = l₁
      · rw [show insertUnused ((l₁, s₁) :: rest) off len ci
            = (l₁, if (⟨off, ci⟩ : BlockIndex) ∈ s₁ then s₁
                   else (⟨off, ci⟩ : BlockIndex) :: s₁) :: rest from by
          simp [insertUnused, h1, h2]]
        unfold UWF
        simp only [List.map_cons, List.pairwise_cons]
        exact ⟨hall, hrest⟩
      · rw [show insertUnused ((l₁, s₁) :: rest) off len ci
            = (l₁, s₁) :: insertUnused rest off len ci from by simp [insertUnused, h1, h2]]
        unfold UWF
        simp only [List.map_cons, List.pairwise_cons]
        refine ⟨?_, ih hrest⟩
        intro k hk
        rcases insertUnused_keys_mem off len ci rest k hk with h | h
        · omega
        · exact hall k h

/-- Keys after `removeUnused` form a sublist of the old keys. -/
theorem removeUnused_keys_sublist (off len ci : Nat) :
    ∀ u : List (Nat × List BlockIndex),
      List.Sublist ((removeUnused u off len ci).map Prod.fst) (u.map Prod.fst) := by
  intro u
  induction u with
  | nil => simp [removeUnused]
  | cons p rest ih =>
    obtain ⟨l₁, s₁⟩ := p
    by_cases h1 : len = l₁
    · subst h1
      rw [show removeUnused ((len, s₁) :: rest) off len ci
          = (if removeEntry s₁ ⟨off, ci⟩ = [] then rest
             else (len, removeEntry s₁ ⟨off, ci⟩) :: rest) from by simp [removeUnused]]
      by_cases hemp : removeEntry s₁ ⟨off, ci⟩ = []
      · rw [if_pos hemp]
        exact List.Sublist.cons _ (List.Sublist.refl _)
      · rw [if_neg hemp]
        simp only [List.map_cons]
        exact List.Sublist.cons₂ _ (List.Sublist.refl _)
    · rw [show removeUnused ((l₁, s₁) :: rest) off len ci
          = (l₁, s₁) :: removeUnused rest off len ci from by simp [removeUnused, h1]]
      simp only [List.map_cons]
      exact List.Sublist.cons₂ _ ih

/-- `removeUnused` keeps the bucket keys strictly sorted. -/
theorem UWF_removeUnused (off len ci : Nat) (u : List (Nat × List BlockIndex))
    (hwf : UWF u) : UWF (removeUnused u off len ci) :=
  List.Pairwise.sublist (removeUnused_keys_sublist off len ci u) hwf

/-- Strictly sorted keys are distinct. -/
theorem UWF.nodup {u : List (Nat × List BlockIndex)} (hwf : UWF u) :
    (u.map Prod.fst).Nodup :=
  hwf.imp Nat.ne_of_lt

/-- Every scanned candidate is an indexed entry from a bucket of length at
least the request. -/
theorem candidates_mem (len ulen : Nat) (bi : BlockIndex) :
    ∀ u : List (Nat × List BlockIndex),
      (ulen, bi) ∈ candidates u len → memU u ulen bi ∧ len ≤ ulen := by
  intro u
  induction u with
  | nil => intro h; simp [candidates] at h
  | cons p rest ih =>
    intro h
    obtain ⟨l, s⟩ := p
    simp only [candidates] at h
    rcases List.mem_append.mp h with h | h
    · by_cases hl : len ≤ l
      · rw [if_pos hl] at h
        obtain ⟨x, hx, heq⟩ := List.mem_map.mp h
        obtain ⟨h1, h2⟩ := Prod.mk.injEq .. ▸ heq
        refine ⟨?_, ?_⟩
        · rw [memU_cons]
          exact Or.inl ⟨h1.symm, h2 ▸ hx⟩
        · omega
      · rw [if_neg hl] at h
        simp at h
    · obtain ⟨hm, hle⟩ := ih h
      rw [memU_cons]
      exact ⟨Or.inr hm, hle⟩

/-- Characterization of a successful scan: some candidate passes all the
checks and the result is the corresponding state change. -/
theorem allocLoop_some_spec (cm : ChunkManager) (len align : Nat) :
    ∀ (cands : List (Nat × BlockIndex)) (bi : BlockIndex) (cm' : ChunkManager),
      allocLoop cm len align cands = some (some bi, cm') →
      ∃ ulen cbi chunk block, (ulen, cbi) ∈ cands ∧
        mlookup cm.chunks cbi.chunk_index = some chunk ∧
        mlookup chunk.blocks cbi.offset = some block ∧ align ≠ 0 ∧
        ((cbi.offset % align = 0 ∧ ¬ block.len < len ∧
          bi = ⟨cbi.offset, cbi.chunk_index⟩ ∧
          cm' = allocAligned cm ulen cbi chunk block len) ∨
         (cbi.offset % align ≠ 0 ∧ ∃ avail,
           checkedSub block.len (align - cbi.offset % align) = some avail ∧ ¬ avail < len ∧
           bi = ⟨cbi.offset + (align - cbi.offset % align), cbi.chunk_index⟩ ∧
           cm' = allocMisaligned cm ulen cbi chunk block len
                   (align - cbi.offset % align) avail)) := by
  intro cands
  induction cands with
  | nil => intro bi cm' h; simp [allocLoop] at h
  | cons c rest ih =>
    intro bi cm' h
    obtain ⟨ulen, cbi⟩ := c
    simp only [allocLoop] at h
    cases hc : mlookup cm.chunks cbi.chunk_index with
    | none => simp only [hc] at h; exact absurd h (by simp)
    | some chunk =>
      simp only [hc] at h
      cases hb : mlookup chunk.blocks cbi.offset with
      | none => simp only [hb] at h; exact absurd h (by simp)
      | some block =>
        simp only [hb] at h
        by_cases ha : align = 0
        · rw [if_pos ha] at h; exact absurd h (by simp)
        · rw [if_neg ha] at h
          by_cases hm : cbi.offset % align = 0
          · rw [if_pos hm] at h
            by_cases hs : block.len < len
            · rw [if_pos hs] at h
              obtain ⟨u', c', ch', b', hmem, rest'⟩ := ih bi cm' h
              exact ⟨u', c', ch', b', List.mem_cons_of_mem _ hmem, rest'⟩
            · rw [if_neg hs] at h
              simp only [Option.some.injEq, Prod.mk.injEq] at h
              obtain ⟨h1, h2⟩ := h
              refine ⟨ulen, cbi, chunk, block, List.mem_cons_self _ _, hc, hb, ha,
                Or.inl ⟨hm, hs, h1.symm, h2.symm⟩⟩
          · rw [if_neg hm] at h
            cases hcs : checkedSub block.len (align - cbi.offset % align) with
            | none => simp only [hcs] at h; exact absurd h (by simp)
            | some avail =>
              simp only [hcs] at h
              by_cases hs : avail < len
              · rw [if_pos hs] at h
                obtain ⟨u', c', ch', b', hmem, rest'⟩ := ih bi cm' h
                exact ⟨u', c', ch', b', List.mem_cons_of_mem _ hmem, rest'⟩
              · rw [if_neg hs] at h
                simp only [Option.some.injEq, Prod.mk.injEq] at h
                obtain ⟨h1, h2⟩ := h
                refine ⟨ulen, cbi, chunk, block, List.mem_cons_self _ _, hc, hb, ha,
                  Or.inr ⟨hm, avail, hcs, hs, h1.symm, h2.symm⟩⟩

/-- Characterization of a successful `allocate`. -/
theorem allocate_some_spec (cm : ChunkManager) (len align : Nat) (bi : BlockIndex)
    (cm' : ChunkManager) (h : cm.allocate len align = some (some bi, cm')) :
    len ≠ 0 ∧
    ∃ ulen cbi chunk block, memU cm.unused_blocks ulen cbi ∧ len ≤ ulen ∧
      mlookup cm.chunks cbi.chunk_index = some chunk ∧
      mlookup chunk.blocks cbi.offset = some block ∧ align ≠ 0 ∧
      ((cbi.offset % align = 0 ∧ ¬ block.len < len ∧
        bi = ⟨cbi.offset, cbi.chunk_index⟩ ∧
        cm' = allocAligned cm ulen cbi chunk block len) ∨
       (cbi.offset % align ≠ 0 ∧ ∃ avail,
         checkedSub block.len (align - cbi.offset % align) = some avail ∧ ¬ avail < len ∧
         bi = ⟨cbi.offset + (align - cbi.offset % align), cbi.chunk_index⟩ ∧
         cm' = allocMisaligned cm ulen cbi chunk block len
                 (align - cbi.offset % align) avail)) := by
  unfold ChunkManager.allocate at h
  by_cases hz : len = 0
  · rw [if_pos hz] at h
    exact absurd h (by simp)
  · rw [if_neg hz] at h
    obtain ⟨ulen, cbi, chunk, block, hmem, hrest⟩ := allocLoop_some_spec cm len align _ bi cm' h
    obtain ⟨hmu, hle⟩ := candidates_mem len ulen cbi cm.unused_blocks hmem
    exact ⟨hz, ulen, cbi, chunk, block, hmu, hle, hrest⟩

/-- A block equals its reconstruction from fields when it is free. -/
theorem Block.eta_free (b : Block) (h : b.used = false) :
    (⟨b.len, false, b.pre, b.next⟩ : Block) = b := by
  cases b
  subst h
  rfl

/-- Removing an indexed entry and inserting it back restores the index. -/
theorem memU_remove_insert_self (U : List (Nat × List BlockIndex)) (hwf : UWF U)
    (o L ci : Nat) (hE : memU U L ⟨o, ci⟩) (l : Nat) (x : BlockIndex) :
    memU (insertUnused (removeUnused U o L ci) o L ci) l x ↔ memU U l x := by
  rw [memU_insertUnused, memU_removeUnused _ _ _ _ hwf.nodup]
  constructor
  · rintro (⟨rfl, rfl⟩ | ⟨h, _⟩)
    · exact hE
    · exact h
  · intro h
    by_cases hx : l = L ∧ x = ⟨o, ci⟩
    · exact Or.inl hx
    · exact Or.inr ⟨h, hx⟩

/-- Round trip, aligned exact-fit case: freeing the block just claimed by the
aligned branch of `allocate` with `len = block.len` restores the manager. -/
theorem roundtrip_aligned_exact (cm : ChunkManager) (blen o ci : Nat)
    (chunk : AllocatedChuck) (bpre bnext : Option Nat)
    (hwfU : UWF cm.unused_blocks)
    (hmu : memU cm.unused_blocks blen ⟨o, ci⟩)
    (hc : mlookup cm.chunks ci = some chunk)
    (hb : mlookup chunk.blocks o = some ⟨blen, false, bpre, bnext⟩)
    (hblen : 0 < blen)
    (hnextF : bnext = none ∨ ∃ nb, bnext = some (o + blen) ∧
        mlookup chunk.blocks (o + blen) = some nb ∧ nb.used = true)
    (hpreF : bpre = none ∨ ∃ p pb, bpre = some p ∧ p < o ∧
        mlookup chunk.blocks p = some pb ∧ pb.used = true) :
    ∃ cm₂, (allocAligned cm blen ⟨o, ci⟩ chunk ⟨blen, false, bpre, bnext⟩ blen).free_unchecked
        ⟨o, ci⟩ = some cm₂ ∧ CMEquiv cm₂ cm := by
  have hA : allocAligned cm blen ⟨o, ci⟩ chunk ⟨blen, false, bpre, bnext⟩ blen
      = ⟨removeUnused cm.unused_blocks o blen ci,
         minsert cm.chunks ci
           ⟨minsert chunk.blocks o ⟨blen, true, bpre, bnext⟩, chunk.device_memory⟩⟩ := by
    unfold allocAligned
    rw [if_pos rfl]
  rw [hA]
  have h1 : mlookup (minsert cm.chunks ci
      ⟨minsert chunk.blocks o ⟨blen, true, bpre, bnext⟩, chunk.device_memory⟩) ci
      = some ⟨minsert chunk.blocks o ⟨blen, true, bpre, bnext⟩, chunk.device_memory⟩ := by
    rw [mlookup_minsert, if_pos rfl]
  have h2 : mlookup (minsert chunk.blocks o ⟨blen, true, bpre, bnext⟩) o
      = some ⟨blen, true, bpre, bnext⟩ := by
    rw [mlookup_minsert, if_pos rfl]
  have hfin : ∀ k, mlookup (minsert
        (merase (minsert chunk.blocks o ⟨blen, true, bpre, bnext⟩) o) o
        ⟨blen, false, bpre, bnext⟩) k = mlookup chunk.blocks k := by
    intro k
    by_cases hk : k = o
    · subst hk
      rw [mlookup_minsert, if_pos rfl, hb]
    · rw [mlookup_minsert, if_neg hk, mlookup_merase, if_neg hk,
        mlookup_minsert, if_neg hk]
  have hequiv : CMEquiv
      ⟨insertUnused (removeUnused cm.unused_blocks o blen ci) o blen ci,
       minsert (minsert cm.chunks ci
         ⟨minsert chunk.blocks o ⟨blen, true, bpre, bnext⟩, chunk.device_memory⟩) ci
         ⟨minsert (merase (minsert chunk.blocks o ⟨blen, true, bpre, bnext⟩) o)
            o ⟨blen, false, bpre, bnext⟩, chunk.device_memory⟩⟩ cm := by
    refine ⟨?_, ?_, ?_⟩
    · intro l x
      exact memU_remove_insert_self cm.unused_blocks hwfU o blen ci hmu l x
    · intro ci'
      by_cases hci : ci' = ci
      · subst hci
        rw [mlookup_minsert, if_pos rfl, hc]
        rfl
      · rw [mlookup_minsert, if_neg hci, mlookup_minsert, if_neg hci]
    · intro ci' k
      by_cases hci : ci' = ci
      · subst hci
        rw [mlookup_minsert, if_pos rfl, hc]
        simp [hfin k]
      · rw [mlookup_minsert, if_neg hci, mlookup_minsert, if_neg hci]
  rcases hnextF with hn | ⟨nb, hn, hnb, hnbu⟩
  · subst hn
    rcases hpreF with hp | ⟨p, pb, hp, hplt, hpb, hpbu⟩
    · subst hp
      refine ⟨_, ?_, hequiv⟩
      simp only [ChunkManager.free_unchecked, h1, h2]
    · subst hp
      have h4 : mlookup
          (merase (minsert chunk.blocks o ⟨blen, true, some p, none⟩) o) p
          = some pb := by
        rw [mlookup_merase, if_neg (by omega), mlookup_minsert, if_neg (by omega)]
        exact hpb
      refine ⟨_, ?_, hequiv⟩
      simp only [ChunkManager.free_unchecked, h1, h2, h4, hpbu]
      rw [if_neg (show ¬ (true = false) by decide)]
  · subst hn
    have h3 : mlookup
        (merase (minsert chunk.blocks o ⟨blen, true, bpre, some (o + blen)⟩) o)
        (o + blen) = some nb := by
      rw [mlookup_merase, if_neg (by omega), mlookup_minsert, if_neg (by omega)]
      exact hnb
    rcases hpreF with hp | ⟨p, pb, hp, hplt, hpb, hpbu⟩
    · subst hp
      refine ⟨_, ?_, hequiv⟩
      simp only [ChunkManager.free_unchecked, h1, h2, h3, hnbu]
      rw [if_neg (show ¬ (true = false) by decide)]
    · subst hp
      have h4 : mlookup
          (merase (minsert chunk.blocks o ⟨blen, true, some p, some (o + blen)⟩) o) p
          = some pb := by
        rw [mlookup_merase, if_neg (by omega), mlookup_minsert, if_neg (by omega)]
        exact hpb
      refine ⟨_, ?_, hequiv⟩
      simp only [ChunkManager.free_unchecked, h1, h2, h3, hnbu]
      rw [if_neg (show ¬ (true = false) by decide)]
      simp only [h4, hpbu]
      rw [if_neg (show ¬ (true = false) by decide)]

/-- Round trip, aligned split case: freeing the block claimed by the aligned
branch of `allocate` with `len < block.len` re-absorbs the split-off free
remainder and restores the manager. -/
theorem roundtrip_aligned_split (cm : ChunkManager) (len blen o ci : Nat)
    (chunk : AllocatedChuck) (bpre bnext : Option Nat)
    (hwfU : UWF cm.unused_blocks)
    (hmu : memU cm.unused_blocks blen ⟨o, ci⟩)
    (hc : mlookup cm.chunks ci = some chunk)
    (hb : mlookup chunk.blocks o = some ⟨blen, false, bpre, bnext⟩)
    (hlen0 : 0 < len) (hlt : len < blen)
    (hint : ∀ j, 0 < j → j < blen → mlookup chunk.blocks (o + j) = none)
    (hfresh : ¬ memU cm.unused_blocks (blen - len) ⟨o + len, ci⟩)
    (hpreF : bpre = none ∨ ∃ p pb, bpre = some p ∧ p < o ∧
        mlookup chunk.blocks p = some pb ∧ pb.used = true) :
    ∃ cm₂, (allocAligned cm blen ⟨o, ci⟩ chunk ⟨blen, false, bpre, bnext⟩ len).free_unchecked
        ⟨o, ci⟩ = some cm₂ ∧ CMEquiv cm₂ cm := by
  have harith : len + (blen - len) = blen := by omega
  have hA : allocAligned cm blen ⟨o, ci⟩ chunk ⟨blen, false, bpre, bnext⟩ len
      = ⟨insertUnused (removeUnused cm.unused_blocks o blen ci) (o + len) (blen - len) ci,
         minsert cm.chunks ci
           ⟨minsert (minsert chunk.blocks o ⟨len, true, bpre, some (o + len)⟩) (o + len)
              ⟨blen - len, false, some o, bnext⟩, chunk.device_memory⟩⟩ := by
    unfold allocAligned
    have hne : ¬ len = (⟨blen, false, bpre, bnext⟩ : Block).len := by
      show ¬ len = blen
      omega
    rw [if_neg hne]
  rw [hA]
  have h1 : mlookup (minsert cm.chunks ci
      ⟨minsert (minsert chunk.blocks o ⟨len, true, bpre, some (o + len)⟩) (o + len)
         ⟨blen - len, false, some o, bnext⟩, chunk.device_memory⟩) ci
      = some ⟨minsert (minsert chunk.blocks o ⟨len, true, bpre, some (o + len)⟩) (o + len)
         ⟨blen - len, false, some o, bnext⟩, chunk.device_memory⟩ := by
    rw [mlookup_minsert, if_pos rfl]
  have h2 : mlookup (minsert (minsert chunk.blocks o ⟨len, true, bpre, some (o + len)⟩)
      (o + len) ⟨blen - len, false, some o, bnext⟩) o
      = some ⟨len, true, bpre, some (o + len)⟩ := by
    rw [mlookup_minsert, if_neg (by omega), mlookup_minsert, if_pos rfl]
  have h3 : mlookup (merase (minsert (minsert chunk.blocks o ⟨len, true, bpre, some (o + len)⟩)
      (o + len) ⟨blen - len, false, some o, bnext⟩) o) (o + len)
      = some ⟨blen - len, false, some o, bnext⟩ := by
    rw [mlookup_merase, if_neg (by omega), mlookup_minsert, if_pos rfl]
  have hfin : ∀ k, mlookup (minsert
      (merase (merase (minsert (minsert chunk.blocks o ⟨len, true, bpre, some (o + len)⟩)
        (o + len) ⟨blen - len, false, some o, bnext⟩) o) (o + len)) o
      ⟨len + (blen - len), false, bpre, bnext⟩) k = mlookup chunk.blocks k := by
    intro k
    by_cases hk : k = o
    · subst hk
      rw [mlookup_minsert, if_pos rfl, harith, hb]
    · by_cases hk2 : k = o + len
      · subst hk2
        rw [mlookup_minsert, if_neg hk, mlookup_merase, if_pos rfl,
          hint len hlen0 hlt]
      · rw [mlookup_minsert, if_neg hk, mlookup_merase, if_neg hk2, mlookup_merase,
          if_neg hk, mlookup_minsert, if_neg hk2, mlookup_minsert, if_neg hk]
  have huequiv : ∀ l x, memU (insertUnused (removeUnused (insertUnused
      (removeUnused cm.unused_blocks o blen ci) (o + len) (blen - len) ci)
      (o + len) (blen - len) ci) o (len + (blen - len)) ci) l x
      ↔ memU cm.unused_blocks l x := by
    intro l x
    have hwf1 : UWF (removeUnused cm.unused_blocks o blen ci) :=
      UWF_removeUnused _ _ _ _ hwfU
    have hwf2 : UWF (insertUnused (removeUnused cm.unused_blocks o blen ci)
        (o + len) (blen - len) ci) := UWF_insertUnused _ _ _ _ hwf1
    rw [harith, memU_insertUnused, memU_removeUnused _ _ _ _ hwf2.nodup,
      memU_insertUnused, memU_removeUnused _ _ _ _ hwfU.nodup]
    constructor
    · rintro (⟨rfl, rfl⟩ | ⟨⟨rfl, rfl⟩ | ⟨hm, _⟩, hne2⟩)
      · exact hmu
      · exact absurd ⟨rfl, rfl⟩ hne2
      · exact hm
    · intro hm
      by_cases hE : l = blen ∧ x = ⟨o, ci⟩
      · exact Or.inl hE
      · refine Or.inr ⟨Or.inr ⟨hm, hE⟩, ?_⟩
        rintro ⟨rfl, rfl⟩
        exact hfresh hm
  have hequiv : CMEquiv
      ⟨insertUnused (removeUnused (insertUnused (removeUnused cm.unused_blocks o blen ci)
          (o + len) (blen - len) ci) (o + len) (blen - len) ci) o (len + (blen - len)) ci,
       minsert (minsert cm.chunks ci
         ⟨minsert (minsert chunk.blocks o ⟨len, true, bpre, some (o + len)⟩) (o + len)
            ⟨blen - len, false, some o, bnext⟩, chunk.device_memory⟩) ci
         ⟨minsert (merase (merase (minsert (minsert chunk.blocks o
              ⟨len, true, bpre, some (o + len)⟩) (o + len)
              ⟨blen - len, false, some o, bnext⟩) o) (o + len)) o
            ⟨len + (blen - len), false, bpre, bnext⟩, chunk.device_memory⟩⟩ cm := by
    refine ⟨huequiv, ?_, ?_⟩
    · intro ci'
      by_cases hci : ci' = ci
      · subst hci
        rw [mlookup_minsert, if_pos rfl, hc]
        rfl
      · rw [mlookup_minsert, if_neg hci, mlookup_minsert, if_neg hci]
    · intro ci' k
      by_cases hci : ci' = ci
      · subst hci
        rw [mlookup_minsert, if_pos rfl, hc]
        simp [hfin k]
      · rw [mlookup_minsert, if_neg hci, mlookup_minsert, if_neg hci]
  rcases hpreF with hp | ⟨p, pb, hp, hplt, hpb, hpbu⟩
  · subst hp
    refine ⟨_, ?_, hequiv⟩
    simp only [ChunkManager.free_unchecked, h1, h2, h3]
    simp
  · subst hp
    have h4 : mlookup (merase (merase (minsert (minsert chunk.blocks o
        ⟨len, true, some p, some (o + len)⟩) (o + len)
        ⟨blen - len, false, some o, bnext⟩) o) (o + len)) p = some pb := by
      rw [mlookup_merase, if_neg (by omega), mlookup_merase, if_neg (by omega),
        mlookup_minsert, if_neg (by omega), mlookup_minsert, if_neg (by omega)]
      exact hpb
    refine ⟨_, ?_, hequiv⟩
    simp only [ChunkManager.free_unchecked, h1, h2, h3]
    simp only [if_true, h4, hpbu]
    simp

/-- Removing an entry, inserting and removing a fresh one, and re-inserting
the original restores the index. -/
theorem memU_roundtrip_chain (U : List (Nat × List BlockIndex)) (hwf : UWF U)
    (o L ci o' L' ci' : Nat)
    (hE : memU U L ⟨o, ci⟩) (hF : ¬ memU U L' ⟨o', ci'⟩) (l : Nat) (x : BlockIndex) :
    memU (insertUnused (removeUnused (insertUnused (removeUnused U o L ci) o' L' ci')
      o' L' ci') o L ci) l x ↔ memU U l x := by
  have hwf1 : UWF (removeUnused U o L ci) := UWF_removeUnused _ _ _ _ hwf
  have hwf2 : UWF (insertUnused (removeUnused U o L ci) o' L' ci') :=
    UWF_insertUnused _ _ _ _ hwf1
  rw [memU_insertUnused, memU_removeUnused _ _ _ _ hwf2.nodup, memU_insertUnused,
    memU_removeUnused _ _ _ _ hwf.nodup]
  constructor
  · rintro (⟨rfl, rfl⟩ | ⟨⟨rfl, rfl⟩ | ⟨hm, _⟩, hne2⟩)
    · exact hE
    · exact absurd ⟨rfl, rfl⟩ hne2
    · exact hm
  · intro hm
    by_cases hEq : l = L ∧ x = ⟨o, ci⟩
    · exact Or.inl hEq
    · refine Or.inr ⟨Or.inr ⟨hm, hEq⟩, ?_⟩
      rintro ⟨rfl, rfl⟩
      exact hF hm

/-- Same as `memU_roundtrip_chain` with two fresh intermediate entries. -/
theorem memU_roundtrip_chain6 (U : List (Nat × List BlockIndex)) (hwf : UWF U)
    (o L ci o1 L1 o2 L2 : Nat)
    (hE : memU U L ⟨o, ci⟩) (hF1 : ¬ memU U L1 ⟨o1, ci⟩) (hF2 : ¬ memU U L2 ⟨o2, ci⟩)
    (l : Nat) (x : BlockIndex) :
    memU (insertUnused (removeUnused (removeUnused (insertUnused (insertUnused
      (removeUnused U o L ci) o1 L1 ci) o2 L2 ci) o2 L2 ci) o1 L1 ci) o L ci) l x
    ↔ memU U l x := by
  have hwf1 : UWF (removeUnused U o L ci) := UWF_removeUnused _ _ _ _ hwf
  have hwf2 : UWF (insertUnused (removeUnused U o L ci) o1 L1 ci) :=
    UWF_insertUnused _ _ _ _ hwf1
  have hwf3 : UWF (insertUnused (insertUnused (removeUnused U o L ci) o1 L1 ci) o2 L2 ci) :=
    UWF_insertUnused _ _ _ _ hwf2
  have hwf4 : UWF (removeUnused (insertUnused (insertUnused (removeUnused U o L ci)
      o1 L1 ci) o2 L2 ci) o2 L2 ci) := UWF_removeUnused _ _ _ _ hwf3
  rw [memU_insertUnused, memU_removeUnused _ _ _ _ hwf4.nodup,
    memU_removeUnused _ _ _ _ hwf3.nodup, memU_insertUnused, memU_insertUnused,
    memU_removeUnused _ _ _ _ hwf.nodup]
  constructor
  · rintro (⟨rfl, rfl⟩ | ⟨⟨⟨rfl, rfl⟩ | ⟨rfl, rfl⟩ | ⟨hm, _⟩, hne2⟩, hne1⟩)
    · exact hE
    · exact absurd ⟨rfl, rfl⟩ hne2
    · exact absurd ⟨rfl, rfl⟩ hne1
    · exact hm
  · intro hm
    by_cases hEq : l = L ∧ x = ⟨o, ci⟩
    · exact Or.inl hEq
    · refine Or.inr ⟨⟨Or.inr (Or.inr ⟨hm, hEq⟩), ?_⟩, ?_⟩
      · rintro ⟨rfl, rfl⟩
        exact hF2 hm
      · rintro ⟨rfl, rfl⟩
        exact hF1 hm

/-- Round trip, misaligned exact-fit case (`available_len = len`): freeing the
used block re-absorbs the padding block in front of it and restores the
manager. -/
theorem roundtrip_misaligned_exact (cm : ChunkManager) (len blen wasted o ci : Nat)
    (chunk : AllocatedChuck) (bpre bnext : Option Nat)
    (hwfU : UWF cm.unused_blocks)
    (hmu : memU cm.unused_blocks blen ⟨o, ci⟩)
    (hc : mlookup cm.chunks ci = some chunk)
    (hb : mlookup chunk.blocks o = some ⟨blen, false, bpre, bnext⟩)
    (hlen0 : 0 < len) (hw0 : 0 < wasted) (hsum : blen = wasted + len)
    (hint : ∀ j, 0 < j → j < blen → mlookup chunk.blocks (o + j) = none)
    (hfreshW : ¬ memU cm.unused_blocks wasted ⟨o, ci⟩)
    (hnextF : bnext = none ∨ ∃ nb, bnext = some (o + blen) ∧
        mlookup chunk.blocks (o + blen) = some nb ∧ nb.used = true) :
    ∃ cm₂, (allocMisaligned cm blen ⟨o, ci⟩ chunk ⟨blen, false, bpre, bnext⟩ len wasted
        len).free_unchecked ⟨o + wasted, ci⟩ = some cm₂ ∧ CMEquiv cm₂ cm := by
  have hA : allocMisaligned cm blen ⟨o, ci⟩ chunk ⟨blen, false, bpre, bnext⟩ len wasted len
      = ⟨insertUnused (removeUnused cm.unused_blocks o blen ci) o wasted ci,
         minsert cm.chunks ci
           ⟨minsert (minsert chunk.blocks o ⟨wasted, false, bpre, some (o + wasted)⟩)
              (o + wasted) ⟨len, true, some o, bnext⟩, chunk.device_memory⟩⟩ := by
    unfold allocMisaligned
    rw [if_neg (lt_irrefl len)]
  rw [hA]
  have h1 : mlookup (minsert cm.chunks ci
      ⟨minsert (minsert chunk.blocks o ⟨wasted, false, bpre, some (o + wasted)⟩)
         (o + wasted) ⟨len, true, some o, bnext⟩, chunk.device_memory⟩) ci
      = some ⟨minsert (minsert chunk.blocks o ⟨wasted, false, bpre, some (o + wasted)⟩)
         (o + wasted) ⟨len, true, some o, bnext⟩, chunk.device_memory⟩ := by
    rw [mlookup_minsert, if_pos rfl]
  have h2 : mlookup (minsert (minsert chunk.blocks o ⟨wasted, false, bpre, some (o + wasted)⟩)
      (o + wasted) ⟨len, true, some o, bnext⟩) (o + wasted)
      = some ⟨len, true, some o, bnext⟩ := by
    rw [mlookup_minsert, if_pos rfl]
  have h4 : mlookup (merase (minsert (minsert chunk.blocks o
      ⟨wasted, false, bpre, some (o + wasted)⟩) (o + wasted)
      ⟨len, true, some o, bnext⟩) (o + wasted)) o
      = some ⟨wasted, false, bpre, some (o + wasted)⟩ := by
    rw [mlookup_merase, if_neg (by omega), mlookup_minsert, if_neg (by omega),
      mlookup_minsert, if_pos rfl]
  have hfin : ∀ k, mlookup (minsert (merase (minsert (minsert chunk.blocks o
      ⟨wasted, false, bpre, some (o + wasted)⟩) (o + wasted)
      ⟨len, true, some o, bnext⟩) (o + wasted)) o
      ⟨wasted + len, false, bpre, bnext⟩) k = mlookup chunk.blocks k := by
    intro k
    by_cases hk : k = o
    · subst hk
      rw [mlookup_minsert, if_pos rfl, hb, show wasted + len = blen from hsum.symm]
    · by_cases hk2 : k = o + wasted
      · subst hk2
        rw [mlookup_minsert, if_neg hk, mlookup_merase, if_pos rfl,
          hint wasted hw0 (by omega)]
      · rw [mlookup_minsert, if_neg hk, mlookup_merase, if_neg hk2,
          mlookup_minsert, if_neg hk2, mlookup_minsert, if_neg hk]
  have hequiv : CMEquiv
      ⟨insertUnused (removeUnused (insertUnused (removeUnused cm.unused_blocks o blen ci)
          o wasted ci) o wasted ci) o (wasted + len) ci,
       minsert (minsert cm.chunks ci
         ⟨minsert (minsert chunk.blocks o ⟨wasted, false, bpre, some (o + wasted)⟩)
            (o + wasted) ⟨len, true, some o, bnext⟩, chunk.device_memory⟩) ci
         ⟨minsert (merase (minsert (minsert chunk.blocks o
              ⟨wasted, false, bpre, some (o + wasted)⟩) (o + wasted)
              ⟨len, true, some o, bnext⟩) (o + wasted)) o
            ⟨wasted + len, false, bpre, bnext⟩, chunk.device_memory⟩⟩ cm := by
    refine ⟨?_, ?_, ?_⟩
    · intro l x
      rw [show wasted + len = blen from hsum.symm]
      exact memU_roundtrip_chain cm.unused_blocks hwfU o blen ci o wasted ci hmu hfreshW l x
    · intro ci'
      by_cases hci : ci' = ci
      · subst hci
        rw [mlookup_minsert, if_pos rfl, hc]
        rfl
      · rw [mlookup_minsert, if_neg hci, mlookup_minsert, if_neg hci]
    · intro ci' k
      by_cases hci : ci' = ci
      · subst hci
        rw [mlookup_minsert, if_pos rfl, hc]
        simp [hfin k]
      · rw [mlookup_minsert, if_neg hci, mlookup_minsert, if_neg hci]
  rcases hnextF with hn | ⟨nb, hn, hnb, hnbu⟩
  · subst hn
    refine ⟨_, ?_, hequiv⟩
    simp only [ChunkManager.free_unchecked, h1, h2]
    simp only [h4]
    simp
  · subst hn
    have h3 : mlookup (merase (minsert (minsert chunk.blocks o
        ⟨wasted, false, bpre, some (o + wasted)⟩) (o + wasted)
        ⟨len, true, some o, some (o + blen)⟩) (o + wasted)) (o + blen) = some nb := by
      rw [mlookup_merase, if_neg (by omega), mlookup_minsert, if_neg (by omega),
        mlookup_minsert, if_neg (by omega)]
      exact hnb
    refine ⟨_, ?_, hequiv⟩
    simp only [ChunkManager.free_unchecked, h1, h2, h3, hnbu]
    rw [if_neg (show ¬ (true = false) by decide)]
    simp only [h4]
    simp

/-- Round trip, misaligned split case (`len < available_len`): freeing the
used block re-absorbs the trailing free block and the padding block and
restores the manager. -/
theorem roundtrip_misaligned_split (cm : ChunkManager) (len blen wasted avail o ci : Nat)
    (chunk : AllocatedChuck) (bpre bnext : Option Nat)
    (hwfU : UWF cm.unused_blocks)
    (hmu : memU cm.unused_blocks blen ⟨o, ci⟩)
    (hc : mlookup cm.chunks ci = some chunk)
    (hb : mlookup chunk.blocks o = some ⟨blen, false, bpre, bnext⟩)
    (hlen0 : 0 < len) (hw0 : 0 < wasted) (hlta : len < avail)
    (havail : avail = blen - wasted) (hwb : wasted ≤ blen)
    (hint : ∀ j, 0 < j → j < blen → mlookup chunk.blocks (o + j) = none)
    (hfreshW : ¬ memU cm.unused_blocks wasted ⟨o, ci⟩)
    (hfreshT : ¬ memU cm.unused_blocks (blen - wasted - len) ⟨o + wasted + len, ci⟩) :
    ∃ cm₂, (allocMisaligned cm blen ⟨o, ci⟩ chunk ⟨blen, false, bpre, bnext⟩ len wasted
        avail).free_unchecked ⟨o + wasted, ci⟩ = some cm₂ ∧ CMEquiv cm₂ cm := by
  have htl0 : 0 < blen - wasted - len := by omega
  have harith : wasted + (len + (blen - wasted - len)) = blen := by omega
  have hA : allocMisaligned cm blen ⟨o, ci⟩ chunk ⟨blen, false, bpre, bnext⟩ len wasted avail
      = ⟨insertUnused (insertUnused (removeUnused cm.unused_blocks o blen ci) o wasted ci)
           (o + wasted + len) (blen - wasted - len) ci,
         minsert cm.chunks ci
           ⟨minsert (minsert (minsert chunk.blocks o ⟨wasted, false, bpre, some (o + wasted)⟩)
              (o + wasted + len) ⟨blen - wasted - len, false, some (o + wasted), bnext⟩)
              (o + wasted) ⟨len, true, some o, some (o + wasted + len)⟩,
            chunk.device_memory⟩⟩ := by
    unfold allocMisaligned
    rw [if_pos hlta]
  rw [hA]
  have h1 : mlookup (minsert cm.chunks ci
      ⟨minsert (minsert (minsert chunk.blocks o ⟨wasted, false, bpre, some (o + wasted)⟩)
         (o + wasted + len) ⟨blen - wasted - len, false, some (o + wasted), bnext⟩)
         (o + wasted) ⟨len, true, some o, some (o + wasted + len)⟩,
       chunk.device_memory⟩) ci
      = some ⟨minsert (minsert (minsert chunk.blocks o ⟨wasted, false, bpre, some (o + wasted)⟩)
         (o + wasted + len) ⟨blen - wasted - len, false, some (o + wasted), bnext⟩)
         (o + wasted) ⟨len, true, some o, some (o + wasted + len)⟩,
       chunk.device_memory⟩ := by
    rw [mlookup_minsert, if_pos rfl]
  have h2 : mlookup (minsert (minsert (minsert chunk.blocks o
      ⟨wasted, false, bpre, some (o + wasted)⟩)
      (o + wasted + len) ⟨blen - wasted - len, false, some (o + wasted), bnext⟩)
      (o + wasted) ⟨len, true, some o, some (o + wasted + len)⟩) (o + wasted)
      = some ⟨len, true, some o, some (o + wasted + len)⟩ := by
    rw [mlookup_minsert, if_pos rfl]
  have h3 : mlookup (merase (minsert (minsert (minsert chunk.blocks o
      ⟨wasted, false, bpre, some (o + wasted)⟩)
      (o + wasted + len) ⟨blen - wasted - len, false, some (o + wasted), bnext⟩)
      (o + wasted) ⟨len, true, some o, some (o + wasted + len)⟩) (o + wasted))
      (o + wasted + len)
      = some ⟨blen - wasted - len, false, some (o + wasted), bnext⟩ := by
    rw [mlookup_merase, if_neg (by omega), mlookup_minsert, if_neg (by omega),
      mlookup_minsert, if_pos rfl]
  have h4 : mlookup (merase (merase (minsert (minsert (minsert chunk.blocks o
      ⟨wasted, false, bpre, some (o + wasted)⟩)
      (o + wasted + len) ⟨blen - wasted - len, false, some (o + wasted), bnext⟩)
      (o + wasted) ⟨len, true, some o, some (o + wasted + len)⟩) (o + wasted))
      (o + wasted + len)) o
      = some ⟨wasted, false, bpre, some (o + wasted)⟩ := by
    rw [mlookup_merase, if_neg (by omega), mlookup_merase, if_neg (by omega),
      mlookup_minsert, if_neg (by omega), mlookup_minsert, if_neg (by omega),
      mlookup_minsert, if_pos rfl]
  have hfin : ∀ k, mlookup (minsert (merase (merase (minsert (minsert (minsert chunk.blocks o
      ⟨wasted, false, bpre, some (o + wasted)⟩)
      (o + wasted + len) ⟨blen - wasted - len, false, some (o + wasted), bnext⟩)
      (o + wasted) ⟨len, true, some o, some (o + wasted + len)⟩) (o + wasted))
      (o + wasted + len)) o
      ⟨wasted + (len + (blen - wasted - len)), false, bpre, bnext⟩) k
      = mlookup chunk.blocks k := by
    intro k
    by_cases hk : k = o
    · subst hk
      rw [mlookup_minsert, if_pos rfl, hb, harith]
    · by_cases hk2 : k = o + wasted
      · subst hk2
        rw [mlookup_minsert, if_neg hk, mlookup_merase, if_neg (by omega),
          mlookup_merase, if_pos rfl, hint wasted hw0 (by omega)]
      · by_cases hk3 : k = o + wasted + len
        · subst hk3
          rw [mlookup_minsert, if_neg hk, mlookup_merase, if_pos rfl]
          rw [show o + wasted + len = o + (wasted + len) from by omega]
          exact (hint (wasted + len) (by omega) (by omega)).symm
        · rw [mlookup_minsert, if_neg hk, mlookup_merase, if_neg hk3,
            mlookup_merase, if_neg hk2, mlookup_minsert, if_neg hk2,
            mlookup_minsert, if_neg hk3, mlookup_minsert, if_neg hk]
  have hequiv : CMEquiv
      ⟨insertUnused (removeUnused (removeUnused (insertUnused (insertUnused
          (removeUnused cm.unused_blocks o blen ci) o wasted ci)
          (o + wasted + len) (blen - wasted - len) ci)
          (o + wasted + len) (blen - wasted - len) ci) o wasted ci) o
          (wasted + (len + (blen - wasted - len))) ci,
       minsert (minsert cm.chunks ci
         ⟨minsert (minsert (minsert chunk.blocks o ⟨wasted, false, bpre, some (o + wasted)⟩)
            (o + wasted + len) ⟨blen - wasted - len, false, some (o + wasted), bnext⟩)
            (o + wasted) ⟨len, true, some o, some (o + wasted + len)⟩,
          chunk.device_memory⟩) ci
         ⟨minsert (merase (merase (minsert (minsert (minsert chunk.blocks o
              ⟨wasted, false, bpre, some (o + wasted)⟩)
              (o + wasted + len) ⟨blen - wasted - len, false, some (o + wasted), bnext⟩)
              (o + wasted) ⟨len, true, some o, some (o + wasted + len)⟩) (o + wasted))
              (o + wasted + len)) o
            ⟨wasted + (len + (blen - wasted - len)), false, bpre, bnext⟩,
          chunk.device_memory⟩⟩ cm := by
    refine ⟨?_, ?_, ?_⟩
    · intro l x
      rw [harith]
      exact memU_roundtrip_chain6 cm.unused_blocks hwfU o blen ci o wasted
        (o + wasted + len) (blen - wasted - len) hmu hfreshW hfreshT l x
    · intro ci'
      by_cases hci : ci' = ci
      · subst hci
        rw [mlookup_minsert, if_pos rfl, hc]
        rfl
      · rw [mlookup_minsert, if_neg hci, mlookup_minsert, if_neg hci]
    · intro ci' k
      by_cases hci : ci' = ci
      · subst hci
        rw [mlookup_minsert, if_pos rfl, hc]
        simp [hfin k]
      · rw [mlookup_minsert, if_neg hci, mlookup_minsert, if_neg hci]
  refine ⟨_, ?_, hequiv⟩
  simp only [ChunkManager.free_unchecked, h1, h2, h3]
  rw [if_pos trivial]
  simp only [h4]
  simp

/-- Round trip: on a well-formed manager, any successful `allocate`
immediately followed by `free_unchecked` of the returned index succeeds and
restores the manager (same unused entries, same chunks, same blocks). -/
theorem allocate_free_roundtrip (cm : ChunkManager) (len align : Nat) (bi : BlockIndex)
    (cm₁ : ChunkManager) (hwf : ManagerWF cm)
    (h : cm.allocate len align = some (some bi, cm₁)) :
    ∃ cm₂, cm₁.free_unchecked bi = some cm₂ ∧ CMEquiv cm₂ cm := by
  obtain ⟨hz, ulen, cbi, chunk, block, hmu, hle, hc, hb, ha, hcase⟩ :=
    allocate_some_spec cm len align bi cm₁ h
  obtain ⟨o, ci⟩ := cbi
  have hlen0 : 0 < len := Nat.pos_of_ne_zero hz
  have hul : 0 < ulen := lt_of_lt_of_le hlen0 hle
  have hmu' : memU cm.unused_blocks ulen ⟨o, ci⟩ := hmu
  obtain ⟨c₀, b₀, hc₀, hb₀, hused₀, hlenu₀⟩ := hwf.ucons ulen ⟨o, ci⟩ hmu' hul
  have hc' : mlookup cm.chunks ci = some chunk := hc
  have hb' : mlookup chunk.blocks o = some block := hb
  have hcc : chunk = c₀ := by
    have hcx : mlookup cm.chunks ci = some c₀ := hc₀
    exact Option.some.inj (hc'.symm.trans hcx)
  subst hcc
  have hbb : block = b₀ := by
    have hbx : mlookup chunk.blocks o = some b₀ := hb₀
    exact Option.some.inj (hb'.symm.trans hbx)
  subst hbb
  obtain ⟨blen, bused, bpre, bnext⟩ := block
  have husedv : bused = false := hused₀
  subst husedv
  have hlenv : blen = ulen := hlenu₀
  subst hlenv
  have hcwf : ChunkWF chunk := hwf.chunkWF ci chunk hc'
  obtain ⟨hblen, hint, hnextF, hpreF⟩ :=
    free_block_neighborhood chunk hcwf o ⟨blen, false, bpre, bnext⟩ hb' rfl
  have hblen' : 0 < blen := hblen
  have hint' : ∀ j, 0 < j → j < blen → mlookup chunk.blocks (o + j) = none := hint
  have hnextF' : bnext = none ∨ ∃ nb, bnext = some (o + blen) ∧
      mlookup chunk.blocks (o + blen) = some nb ∧ nb.used = true := hnextF
  have hpreF' : bpre = none ∨ ∃ p pb, bpre = some p ∧ p < o ∧
      mlookup chunk.blocks p = some pb ∧ pb.used = true := hpreF
  rcases hcase with ⟨hm, hsl, hbieq, hcmeq⟩ | ⟨hm, avail, hcs, hsa, hbieq, hcmeq⟩
  · -- aligned branch
    have hsl' : len ≤ blen := Nat.le_of_not_lt hsl
    have hbieq' : bi = ⟨o, ci⟩ := hbieq
    subst hbieq'
    have hcmeq' : cm₁ = allocAligned cm blen ⟨o, ci⟩ chunk ⟨blen, false, bpre, bnext⟩ len :=
      hcmeq
    subst hcmeq'
    by_cases hexact : len = blen
    · subst hexact
      exact roundtrip_aligned_exact cm len o ci chunk bpre bnext hwf.uwf hmu' hc' hb'
        hblen' hnextF' hpreF'
    · have hlt : len < blen := lt_of_le_of_ne hsl' hexact
      have hfresh : ¬ memU cm.unused_blocks (blen - len) ⟨o + len, ci⟩ := by
        intro hmem
        obtain ⟨c', b', hcx, hbx, _, _⟩ := hwf.ucons (blen - len) ⟨o + len, ci⟩ hmem (by omega)
        have hcx' : mlookup cm.chunks ci = some c' := hcx
        have : c' = chunk := Option.some.inj (hcx'.symm.trans hc')
        subst this
        have hbx' : mlookup c'.blocks (o + len) = some b' := hbx
        rw [hint' len hlen0 hlt] at hbx'
        exact Option.noConfusion hbx'
      exact roundtrip_aligned_split cm len blen o ci chunk bpre bnext hwf.uwf hmu' hc' hb'
        hlen0 hlt hint' hfresh hpreF'
  · -- misaligned branch
    have hmod : o % align ≠ 0 := hm
    have hmodlt : o % align < align := Nat.mod_lt _ (Nat.pos_of_ne_zero ha)
    have hw0 : 0 < align - o % align := by omega
    have hcs' : checkedSub blen (align - o % align) = some avail := hcs
    have hwb : align - o % align ≤ blen := by
      by_contra hcon
      unfold checkedSub at hcs'
      rw [if_neg hcon] at hcs'
      exact Option.noConfusion hcs'
    have havail : avail = blen - (align - o % align) := by
      unfold checkedSub at hcs'
      rw [if_pos hwb] at hcs'
      exact (Option.some.inj hcs').symm
    have hsa' : len ≤ avail := Nat.le_of_not_lt hsa
    have hbieq' : bi = ⟨o + (align - o % align), ci⟩ := hbieq
    subst hbieq'
    have hcmeq' : cm₁ = allocMisaligned cm blen ⟨o, ci⟩ chunk ⟨blen, false, bpre, bnext⟩ len
        (align - o % align) avail := hcmeq
    subst hcmeq'
    have hfreshW : ¬ memU cm.unused_blocks (align - o % align) ⟨o, ci⟩ := by
      intro hmem
      obtain ⟨c', b', hcx, hbx, _, hlx⟩ :=
        hwf.ucons (align - o % align) ⟨o, ci⟩ hmem hw0
      have hcx' : mlookup cm.chunks ci = some c' := hcx
      have hceq : c' = chunk := Option.some.inj (hcx'.symm.trans hc')
      subst hceq
      have hbx' : mlookup c'.blocks o = some b' := hbx
      have hbeq : b' = ⟨blen, false, bpre, bnext⟩ := Option.some.inj (hbx'.symm.trans hb')
      subst hbeq
      have hlx' : (⟨blen, false, bpre, bnext⟩ : Block).len = align - o % align := hlx
      simp only at hlx'
      omega
    by_cases hlta : len < avail
    · have hfreshT : ¬ memU cm.unused_blocks (blen - (align - o % align) - len)
          ⟨o + (align - o % align) + len, ci⟩ := by
        intro hmem
        obtain ⟨c', b', hcx, hbx, _, _⟩ :=
          hwf.ucons (blen - (align - o % align) - len)
            ⟨o + (align - o % align) + len, ci⟩ hmem (by omega)
        have hcx' : mlookup cm.chunks ci = some c' := hcx
        have hceq : c' = chunk := Option.some.inj (hcx'.symm.trans hc')
        subst hceq
        have hbx' : mlookup c'.blocks (o + (align - o % align) + len) = some b' := hbx
        rw [show o + (align - o % align) + len = o + ((align - o % align) + len) from by omega]
          at hbx'
        rw [hint' ((align - o % align) + len) (by omega) (by omega)] at hbx'
        exact Option.noConfusion hbx'
      exact roundtrip_misaligned_split cm len blen (align - o % align) avail o ci chunk
        bpre bnext hwf.uwf hmu' hc' hb' hlen0 hw0 hlta havail hwb hint' hfreshW hfreshT
    · have havlen : avail = len := by omega
      subst havlen
      have hsum : blen = (align - o % align) + avail := by omega
      exact roundtrip_misaligned_exact cm avail blen (align - o % align) o ci chunk
        bpre bnext hwf.uwf hmu' hc' hb' hlen0 hw0 hsum hint' hfreshW hnextF'

/-- The fresh one-chunk manager satisfies the well-formedness invariant. -/
theorem oneChunk128_WF : ManagerWF oneChunk128 := by
  have he : oneChunk128 =
      ⟨[(128, [⟨0, 0⟩])], [(0, ⟨[(0, ⟨128, false, none, none⟩)], 128⟩)]⟩ := by decide
  rw [he]
  refine ⟨?_, ?_, ?_⟩
  · intro ci c hc
    by_cases h0 : ci = 0
    · subst h0
      simp only [mlookup, if_pos rfl] at hc
      obtain rfl := Option.some.inj hc
      exact ⟨[(128, false)], by decide, by decide,
        by unfold NoAdjFree; exact List.chain'_singleton _, fun k => rfl⟩
    · exfalso
      simp [mlookup, h0] at hc
  · unfold UWF
    decide
  · intro l bi hm hl
    obtain ⟨s, hs, hbi⟩ := hm
    simp only [List.mem_singleton] at hs
    injection hs with h1 h2
    subst h1
    subst h2
    simp only [List.mem_singleton] at hbi
    subst hbi
    exact ⟨_, _, rfl, rfl, rfl, rfl⟩

/-- C6: allocating any size `S` that fits (with any power-of-two alignment)
from a chunk that is fully free (one free block spanning the whole region, no
links) and then immediately freeing the returned `BlockIndex` restores the
chunk to its pre-allocation state, block for block, and restores the
unused-block index.  CONFIRMED, on any well-formed manager. -/
theorem allocate_then_free_restores_chunk (cm : ChunkManager) (ci : Nat)
    (c : AllocatedChuck) (S align : Nat) (bi : BlockIndex) (cm₁ : ChunkManager)
    (hS : 0 < S) (hpow : ∃ k, align = 2 ^ k)
    (hwf : ManagerWF cm)
    (hc : mlookup cm.chunks ci = some c)
    (hfull : mlookup c.blocks 0 = some ⟨c.device_memory, false, none, none⟩)
    (halloc : cm.allocate S align = some (some bi, cm₁)) :
    ∃ cm₂ c₂, cm₁.free_unchecked bi = some cm₂ ∧
      mlookup cm₂.chunks ci = some c₂ ∧
      c₂.device_memory = c.device_memory ∧
      mlookup c₂.blocks 0 = some ⟨c.device_memory, false, none, none⟩ ∧
      (∀ k, mlookup c₂.blocks k = mlookup c.blocks k) ∧
      (∀ l x, memU cm₂.unused_blocks l x ↔ memU cm.unused_blocks l x) := by
  obtain ⟨cm₂, hfree, hequiv⟩ := allocate_free_roundtrip cm S align bi cm₁ hwf halloc
  obtain ⟨hU, hDM, hBL⟩ := hequiv
  have hdm := hDM ci
  rw [hc] at hdm
  simp only [Option.map_some'] at hdm
  obtain ⟨c₂, hc₂, hdm₂⟩ := Option.map_eq_some'.mp hdm
  have hbl : ∀ k, mlookup c₂.blocks k = mlookup c.blocks k := by
    intro k
    have hb := hBL ci k
    rw [hc, hc₂] at hb
    simpa using hb
  refine ⟨cm₂, c₂, hfree, hc₂, hdm₂, ?_, hbl, hU⟩
  rw [hbl 0, hfull]

/-- The round-trip theorem at the concrete scenario of the spec: a single
fresh 128-byte chunk, `allocate(5, 4)` (which splits the block), then
`free_unchecked` of the returned index. -/
theorem allocate_then_free_restores_chunk_witness :
    ∃ cm₂ c₂, c6s1.free_unchecked ⟨0, 0⟩ = some cm₂ ∧
      mlookup cm₂.chunks 0 = some c₂ ∧
      c₂.device_memory = 128 ∧
      mlookup c₂.blocks 0 = some ⟨128, false, none, none⟩ ∧
      (∀ k, mlookup c₂.blocks k =
        mlookup (⟨[(0, ⟨128, false, none, none⟩)], 128⟩ : AllocatedChuck).blocks k) ∧
      (∀ l x, memU cm₂.unused_blocks l x ↔ memU oneChunk128.unused_blocks l x) :=
  allocate_then_free_restores_chunk oneChunk128 0
    ⟨[(0, ⟨128, false, none, none⟩)], 128⟩ 5 4 ⟨0, 0⟩ c6s1
    (by decide) ⟨2, rfl⟩ oneChunk128_WF (by decide) (by decide) (by decide)
